import Mathlib

/-- Model of an `f32`/`f64` as seen by `OrderedFloat`: NaN, or a non-NaN value
identified by its rank in the total order of the non-NaN floats. -/
inductive Fp where
  | num (x : Int)
  | nan

/-- `Ord::cmp` on `Nat` (models Rust's unsigned-integer `cmp`). -/
def ncmp (a b : Nat) : Ordering :=
  if a < b then .lt else if b < a then .gt else .eq

/-- `Ord::cmp` on `Int` (models Rust's signed-integer `cmp`). -/
def icmp (a b : Int) : Ordering :=
  if a < b then .lt else if b < a then .gt else .eq

/-- `Ord::cmp` on `bool`: `false < true`. -/
def bcmp : Bool → Bool → Ordering
  | false, true => .lt
  | true, false => .gt
  | _, _ => .eq

/-- `OrderedFloat::cmp` (ordered_float v0.2): non-NaN values compare normally,
NaN equals NaN, and NaN is greater than every non-NaN value. -/
def Fp.cmp : Fp → Fp → Ordering
  | .num a, .num b => icmp a b
  | .num _, .nan => .lt
  | .nan, .num _ => .gt
  | .nan, .nan => .eq

/-- `OrderedFloat::eq` (ordered_float v0.2): NaN equals NaN; otherwise native
float equality, which on non-NaN ranks is plain equality. -/
def Fp.beq : Fp → Fp → Bool
  | .num a, .num b => a == b
  | .nan, .nan => true
  | _, _ => false

/-- Lexicographic `Ord::cmp` on byte/scalar sequences (Rust `str`/`[u8]`/`Vec<u8>`
comparison): elementwise, with the shorter sequence a prefix being less. -/
def lexN : List Nat → List Nat → Ordering
  | [], [] => .eq
  | [], _ :: _ => .lt
  | _ :: _, [] => .gt
  | a :: as, b :: bs => (ncmp a b).then (lexN as bs)

/-- Byte sequences: model of `String`, `&'static str` and `Vec<u8>` contents. -/
abbrev Str := List Nat

/-- The `Value` enum of `src/lib.rs` lines 117-146, one constructor per source
variant, in source declaration order. -/
inductive Value where
  | Bool (b : Bool)
  | Usize (n : Nat)
  | U8 (n : Nat)
  | U16 (n : Nat)
  | U32 (n : Nat)
  | U64 (n : Nat)
  | Isize (n : Int)
  | I8 (n : Int)
  | I16 (n : Int)
  | I32 (n : Int)
  | I64 (n : Int)
  | F32 (x : Fp)
  | F64 (x : Fp)
  | Char (c : Nat)
  | String (s : Str)
  | Unit
  | UnitStruct (s : Str)
  | Option (o : Option Value)
  | Newtype (v : Value)
  | Seq (l : List Value)
  | Map (m : List (Value × Value))
  | Bytes (b : List Nat)

/-- `Value::discriminant` (src/lib.rs lines 208-234): the fixed ranking used by
cross-variant comparisons, following the declaration order of the variants. -/
def Value.disc : Value → Nat
  | .Bool _ => 0
  | .Usize _ => 1
  | .U8 _ => 2
  | .U16 _ => 3
  | .U32 _ => 4
  | .U64 _ => 5
  | .Isize _ => 6
  | .I8 _ => 7
  | .I16 _ => 8
  | .I32 _ => 9
  | .I64 _ => 10
  | .F32 _ => 11
  | .F64 _ => 12
  | .Char _ => 13
  | .String _ => 14
  | .Unit => 15
  | .UnitStruct _ => 16
  | .Option _ => 17
  | .Newtype _ => 18
  | .Seq _ => 19
  | .Map _ => 20
  | .Bytes _ => 21

mutual

/-- `impl PartialEq for Value` (src/lib.rs lines 148-175): same variant with equal
payloads (floats via `OrderedFloat` equality), every cross-variant pair unequal. -/
def beqV : Value → Value → Bool
  | .Bool v0, .Bool v1 => v0 == v1
  | .Usize v0, .Usize v1 => v0 == v1
  | .U8 v0, .U8 v1 => v0 == v1
  | .U16 v0, .U16 v1 => v0 == v1
  | .U32 v0, .U32 v1 => v0 == v1
  | .U64 v0, .U64 v1 => v0 == v1
  | .Isize v0, .Isize v1 => v0 == v1
  | .I8 v0, .I8 v1 => v0 == v1
  | .I16 v0, .I16 v1 => v0 == v1
  | .I32 v0, .I32 v1 => v0 == v1
  | .I64 v0, .I64 v1 => v0 == v1
  | .F32 v0, .F32 v1 => Fp.beq v0 v1
  | .F64 v0, .F64 v1 => Fp.beq v0 v1
  | .Char v0, .Char v1 => v0 == v1
  | .String v0, .String v1 => v0 == v1
  | .Unit, .Unit => true
  | .UnitStruct v0, .UnitStruct v1 => v0 == v1
  | .Option v0, .Option v1 => beqO v0 v1
  | .Newtype v0, .Newtype v1 => beqV v0 v1
  | .Seq v0, .Seq v1 => beqL v0 v1
  | .Map v0, .Map v1 => beqP v0 v1
  | .Bytes v0, .Bytes v1 => v0 == v1
  | _, _ => false

/-- `PartialEq` on `Option<Box<Value>>`: structural, payload via `Value::eq`. -/
def beqO : Option Value → Option Value → Bool
  | none, none => true
  | some a, some b => beqV a b
  | _, _ => false

/-- `PartialEq` on `Vec<Value>`: same length, elementwise `Value::eq`. -/
def beqL : List Value → List Value → Bool
  | [], [] => true
  | a :: as, b :: bs => beqV a b && beqL as bs
  | _, _ => false

/-- `PartialEq` on `BTreeMap<Value, Value>`: equal ascending pair sequences. -/
def beqP : List (Value × Value) → List (Value × Value) → Bool
  | [], [] => true
  | (k1, v1) :: as, (k2, v2) :: bs =>
    beqV k1 k2 && beqV v1 v2 && beqP as bs
  | _, _ => false

end

mutual

/-- `impl PartialOrd for Value` (src/lib.rs lines 178-206): same-variant pairs
compare payloads (floats via `Some(OrderedFloat::cmp)`), the fallback arm
compares discriminants. -/
def pcmpV : Value → Value → Option Ordering
  | .Bool v0, .Bool v1 => some (bcmp v0 v1)
  | .Usize v0, .Usize v1 => some (ncmp v0 v1)
  | .U8 v0, .U8 v1 => some (ncmp v0 v1)
  | .U16 v0, .U16 v1 => some (ncmp v0 v1)
  | .U32 v0, .U32 v1 => some (ncmp v0 v1)
  | .U64 v0, .U64 v1 => some (ncmp v0 v1)
  | .Isize v0, .Isize v1 => some (icmp v0 v1)
  | .I8 v0, .I8 v1 => some (icmp v0 v1)
  | .I16 v0, .I16 v1 => some (icmp v0 v1)
  | .I32 v0, .I32 v1 => some (icmp v0 v1)
  | .I64 v0, .I64 v1 => some (icmp v0 v1)
  | .F32 v0, .F32 v1 => some (Fp.cmp v0 v1)
  | .F64 v0, .F64 v1 => some (Fp.cmp v0 v1)
  | .Char v0, .Char v1 => some (ncmp v0 v1)
  | .String v0, .String v1 => some (lexN v0 v1)
  | .Unit, .Unit => some .eq
  | .UnitStruct v0, .UnitStruct v1 => some (lexN v0 v1)
  | .Option v0, .Option v1 => pcmpO v0 v1
  | .Newtype v0, .Newtype v1 => pcmpV v0 v1
  | .Seq v0, .Seq v1 => pcmpS v0 v1
  | .Map v0, .Map v1 => pcmpM v0 v1
  | .Bytes v0, .Bytes v1 => some (lexN v0 v1)
  | v0, v1 => some (ncmp v0.disc v1.disc)

/-- `PartialOrd` on `Option<Box<Value>>`: `None` before `Some`, payloads via
`Value::partial_cmp`. -/
def pcmpO : Option Value → Option Value → Option Ordering
  | none, none => some .eq
  | none, some _ => some .lt
  | some _, none => some .gt
  | some a, some b => pcmpV a b

/-- `PartialOrd` on `Vec<Value>`: lexicographic, stopping at the first non-equal
elementwise comparison (incomparability propagates). -/
def pcmpS : List Value → List Value → Option Ordering
  | [], [] => some .eq
  | [], _ :: _ => some .lt
  | _ :: _, [] => some .gt
  | a :: as, b :: bs =>
    match pcmpV a b with
    | some .eq => pcmpS as bs
    | o => o

/-- `PartialOrd` on `BTreeMap<Value, Value>`: lexicographic over the ascending
pair sequence, each pair compared key first, then value. -/
def pcmpM : List (Value × Value) → List (Value × Value) → Option Ordering
  | [], [] => some .eq
  | [], _ :: _ => some .lt
  | _ :: _, [] => some .gt
  | (k1, v1) :: as, (k2, v2) :: bs =>
    match pcmpV k1 k2 with
    | some .eq =>
      match pcmpV v1 v2 with
      | some .eq => pcmpM as bs
      | o => o
    | o => o

end

/-- `impl Ord for Value` (src/lib.rs lines 246-250):
`self.partial_cmp(rhs).expect("total ordering")`.  The `expect` panic branch is
modeled by the (dead, see the totality theorem) default `.eq`. -/
def cmpV (a b : Value) : Ordering :=
  (pcmpV a b).getD .eq

/-- The Value shape asserted by the spec (claim C8), stated in the spec's own
words: scalars `bool`, unsigned integers at exactly the widths 8/16/32/64, signed
integers at exactly those widths, `f32`/`f64`, `char`, string; structural variants
exactly Unit, Option, Newtype, Seq, Map, Bytes.  This definition follows the
spec, for comparison against the `Value` enum embedded from the source. -/
def specClaimedShape (v : Value) : Prop :=
  (∃ x, v = .Bool x) ∨ (∃ x, v = .U8 x) ∨ (∃ x, v = .U16 x) ∨ (∃ x, v = .U32 x) ∨
  (∃ x, v = .U64 x) ∨ (∃ x, v = .I8 x) ∨ (∃ x, v = .I16 x) ∨ (∃ x, v = .I32 x) ∨
  (∃ x, v = .I64 x) ∨ (∃ x, v = .F32 x) ∨ (∃ x, v = .F64 x) ∨ (∃ x, v = .Char x) ∨
  (∃ x, v = .String x) ∨ v = .Unit ∨ (∃ x, v = .Option x) ∨ (∃ x, v = .Newtype x) ∨
  (∃ x, v = .Seq x) ∨ (∃ x, v = .Map x) ∨ (∃ x, v = .Bytes x)

/-- `DeserializerError` (src/lib.rs lines 16-26).  `de::Type` is modeled as an
opaque numeric tag, messages and field names as byte strings. -/
inductive DeserializerError where
  | Custom (msg : Str)
  | EndOfStream
  | InvalidType (ty : Nat)
  | InvalidValue (msg : Str)
  | InvalidLength (len : Nat)
  | UnknownVariant (field : Str)
  | UnknownField (field : Str)
  | MissingField (field : Str)

/-- `BTreeMap::insert` on the ascending pair-sequence model of `BTreeMap`
(std behavior): walk to the insertion point by `Ord::cmp`; an equal key keeps
the stored key and replaces only the value. -/
def btreeInsert : List (Value × Value) → Value → Value → List (Value × Value)
  | [], k, v => [(k, v)]
  | (k0, v0) :: rest, k, v =>
    match cmpV k k0 with
    | .lt => (k, v) :: (k0, v0) :: rest
    | .eq => (k0, v) :: rest
    | .gt => (k0, v0) :: btreeInsert rest k v

/-- `Deserializer::borrow_map` (src/lib.rs lines 514-522): replace an
already-consumed slot by a fresh empty `Map`, then view the held value as a map.
The source's `unreachable!()` arm (a held non-Map value) is modeled as the empty
map; no reachable caller state hits it, and the claim theorems touching
`borrow_map` restrict themselves to the reachable slots. -/
def borrow_map (slot : Option Value) : List (Value × Value) :=
  match slot.getD (Value.Map []) with
  | .Map m => m
  | _ => []

/-- The state of a `MapVisitor` (src/lib.rs lines 418-422): the remaining
key/value pair iterator, the parent `Deserializer`'s value slot (`de`), and the
value pending from the last successful key request. -/
structure MapVisitorState where
  iter : List (Value × Value)
  de : Option Value
  value : Option Value

/-- `MapVisitor::visit_key` (src/lib.rs lines 427-444): walk the pairs; decode
each key on a fresh `Deserializer` (`kdec` models the key type's
`Deserialize::deserialize`); on success stash the pair's value and return the
key; on an unknown-field error insert the pair into the parent's map (via
`borrow_map`) and continue; on any other error return it; at exhaustion return
`Ok(None)`. -/
def visit_key (kdec : Value → Except DeserializerError κ) :
    MapVisitorState → Except DeserializerError (Option κ) × MapVisitorState
  | ⟨[], de, value⟩ => (.ok none, ⟨[], de, value⟩)
  | ⟨(k, v) :: rest, de, value⟩ =>
    match kdec k with
    | .ok key => (.ok (some key), ⟨rest, de, some v⟩)
    | .error (.UnknownField _) =>
      visit_key kdec ⟨rest, some (.Map (btreeInsert (borrow_map de) k v)), value⟩
    | .error e => (.error e, ⟨rest, de, value⟩)
termination_by st => st.iter.length
decreasing_by simp

/-- `MapVisitor::visit_value` (src/lib.rs lines 446-451): take the pending
value and decode it on a fresh `Deserializer`; with no pending value, fail with
`EndOfStream`. -/
def visit_value (vdec : Value → Except DeserializerError τ) :
    MapVisitorState → Except DeserializerError τ × MapVisitorState
  | ⟨iter, de, some v⟩ => (vdec v, ⟨iter, de, none⟩)
  | ⟨iter, de, none⟩ => (.error .EndOfStream, ⟨iter, de, none⟩)

/-- `MapVisitor::end` (src/lib.rs lines 453-456): extend the parent's map
(via `borrow_map`) with every pair remaining in the iterator; always `Ok(())`. -/
def mapVisitorEnd (st : MapVisitorState) :
    Except DeserializerError Unit × MapVisitorState :=
  (.ok (),
    ⟨[], some (.Map (st.iter.foldl (fun m p => btreeInsert m p.1 p.2) (borrow_map st.de))),
      st.value⟩)

/-- A `de::Visitor` as the `Deserializer` drives it (src/lib.rs lines 527-566):
one callback per `visit_*` method the source invokes.  Callbacks handed a
sub-`Deserializer` (`visit_some`, `visit_newtype_struct`) receive its value
slot and return the result with that deserializer's final slot; `visit_seq`
receives the `SeqDeserializer`'s elements; `visit_map` receives the
`MapVisitor`'s pair iterator plus the parent slot, which it may update through
`borrow_map`, and returns the updated parent slot. -/
structure DVisitor (α : Type) where
  visit_bool : Bool → Except DeserializerError α
  visit_usize : Nat → Except DeserializerError α
  visit_u8 : Nat → Except DeserializerError α
  visit_u16 : Nat → Except DeserializerError α
  visit_u32 : Nat → Except DeserializerError α
  visit_u64 : Nat → Except DeserializerError α
  visit_isize : Int → Except DeserializerError α
  visit_i8 : Int → Except DeserializerError α
  visit_i16 : Int → Except DeserializerError α
  visit_i32 : Int → Except DeserializerError α
  visit_i64 : Int → Except DeserializerError α
  visit_f32 : Fp → Except DeserializerError α
  visit_f64 : Fp → Except DeserializerError α
  visit_char : Nat → Except DeserializerError α
  visit_string : Str → Except DeserializerError α
  visit_unit : Except DeserializerError α
  visit_unit_struct : Str → Except DeserializerError α
  visit_none : Except DeserializerError α
  visit_some : Option Value → Except DeserializerError α × Option Value
  visit_newtype_struct : Option Value → Except DeserializerError α × Option Value
  visit_seq : List Value → Except DeserializerError α
  visit_map : List (Value × Value) → Option Value →
    Except DeserializerError α × Option Value
  visit_byte_buf : List Nat → Except DeserializerError α

/-- `Deserializer::deserialize` (src/lib.rs lines 527-566): take the held value
(leaving the slot empty) and dispatch on its variant; an already-consumed slot
is an `EndOfStream` error.  Returns the result together with the final slot
(`none` except where the map sub-protocol re-buffers into the parent). -/
def deserialize (slot : Option Value) (vis : DVisitor α) :
    Except DeserializerError α × Option Value :=
  match slot with
  | none => (.error .EndOfStream, none)
  | some v =>
    match v with
    | .Bool b => (vis.visit_bool b, none)
    | .Usize n => (vis.visit_usize n, none)
    | .U8 n => (vis.visit_u8 n, none)
    | .U16 n => (vis.visit_u16 n, none)
    | .U32 n => (vis.visit_u32 n, none)
    | .U64 n => (vis.visit_u64 n, none)
    | .Isize n => (vis.visit_isize n, none)
    | .I8 n => (vis.visit_i8 n, none)
    | .I16 n => (vis.visit_i16 n, none)
    | .I32 n => (vis.visit_i32 n, none)
    | .I64 n => (vis.visit_i64 n, none)
    | .F32 x => (vis.visit_f32 x, none)
    | .F64 x => (vis.visit_f64 x, none)
    | .Char c => (vis.visit_char c, none)
    | .String s => (vis.visit_string s, none)
    | .Unit => (vis.visit_unit, none)
    | .UnitStruct s => (vis.visit_unit_struct s, none)
    | .Option none => (vis.visit_none, none)
    | .Option (some w) => ((vis.visit_some (some w)).1, none)
    | .Newtype w => ((vis.visit_newtype_struct (some w)).1, none)
    | .Seq l => (vis.visit_seq l, none)
    | .Map m => vis.visit_map m none
    | .Bytes b => (vis.visit_byte_buf b, none)

/-- `Deserializer::deserialize_option` (src/lib.rs lines 568-577): probe the
held value instead of requiring the `Option` variant.  An `Option` variant is
dispatched through `deserialize` (so per its payload); `Unit` is taken and
answered `visit_none`; everything else is handed to `visit_some(self)` with the
same deserializer (slot passed through unchanged for the visitor to consume). -/
def deserialize_option (slot : Option Value) (vis : DVisitor α) :
    Except DeserializerError α × Option Value :=
  match slot with
  | some (.Option _) => deserialize slot vis
  | some .Unit => (vis.visit_none, none)
  | _ => vis.visit_some slot

/-- The opaque tag modelling the "enum" shape carried by the invalid-type
error that the `forward_to_deserialize!` macro raises for `deserialize_enum`
(src/forward.rs lines 13-23: `Err(invalid_type(Unexpected::Enum, ...))`). -/
def deTypeEnum : Nat := 1

/-- `MissingFieldDeserializer::deserialize` (src/lib.rs lines 464-468): every
plain request fails with `MissingField(field)` without consulting the visitor.
The `forward_to_deserialize!` block (lines 476-506) routes every other request
kind here **except** `deserialize_enum`, which the macro (src/forward.rs lines
13-23) special-cases to an invalid-type error (see `mfdDeserializeEnum`); so
this models all non-option, non-enum requests against the synthesized
deserializer. -/
def mfdDeserialize (field : Str) (_vis : DVisitor α) : Except DeserializerError α :=
  .error (.MissingField field)

/-- `MissingFieldDeserializer::deserialize_enum`, as generated by the
`forward_to_deserialize!` macro's `deserialize_enum` special case
(src/forward.rs lines 13-23, instantiated at src/lib.rs line 504): instead of
forwarding to `deserialize`, it fails directly with an invalid-type
("unexpected enum") error, never consulting the visitor and never naming the
missing field. -/
def mfdDeserializeEnum (_field : Str) (_vis : DVisitor α) : Except DeserializerError α :=
  .error (.InvalidType deTypeEnum)

/-- `MissingFieldDeserializer::deserialize_option` (src/lib.rs lines 470-474):
answer `visitor.visit_none()`, i.e. "absent". -/
def mfdDeserializeOption (_field : Str) (vis : DVisitor α) : Except DeserializerError α :=
  vis.visit_none

/-- `Deserializer::deserialize_enum`, as generated by the
`forward_to_deserialize!` macro's `deserialize_enum` special case
(src/forward.rs lines 13-23, instantiated at src/lib.rs line 607): it does not
dispatch through `deserialize` and ignores the held value entirely, failing
with an invalid-type ("unexpected enum") error whatever the state; the slot is
left untouched. -/
def deserialize_enum (slot : Option Value) (_vis : DVisitor α) :
    Except DeserializerError α × Option Value :=
  (.error (.InvalidType deTypeEnum), slot)

/-- A visitor with serde's default behavior on every method: reject the value
with an invalid-type error (host-framework side of the contract; concrete
visitors override the methods their target implements). -/
def defaultVisitor (α : Type) : DVisitor α where
  visit_bool _ := .error (.InvalidType 0)
  visit_usize _ := .error (.InvalidType 0)
  visit_u8 _ := .error (.InvalidType 0)
  visit_u16 _ := .error (.InvalidType 0)
  visit_u32 _ := .error (.InvalidType 0)
  visit_u64 _ := .error (.InvalidType 0)
  visit_isize _ := .error (.InvalidType 0)
  visit_i8 _ := .error (.InvalidType 0)
  visit_i16 _ := .error (.InvalidType 0)
  visit_i32 _ := .error (.InvalidType 0)
  visit_i64 _ := .error (.InvalidType 0)
  visit_f32 _ := .error (.InvalidType 0)
  visit_f64 _ := .error (.InvalidType 0)
  visit_char _ := .error (.InvalidType 0)
  visit_string _ := .error (.InvalidType 0)
  visit_unit := .error (.InvalidType 0)
  visit_unit_struct _ := .error (.InvalidType 0)
  visit_none := .error (.InvalidType 0)
  visit_some s := (.error (.InvalidType 0), s)
  visit_newtype_struct s := (.error (.InvalidType 0), s)
  visit_seq _ := .error (.InvalidType 0)
  visit_map _ de := (.error (.InvalidType 0), de)
  visit_byte_buf _ := .error (.InvalidType 0)

/-- A visitor whose `visit_some` answers directly with a value, never touching
the deserializer it is handed: used to exhibit that `deserialize_option` on a
consumed slot does not itself fail. -/
def constSomeVisitor : DVisitor Nat :=
  { defaultVisitor Nat with visit_some := fun s => (.ok 7, s) }

/-- The visitor of serde's `impl Deserialize for Option<T>` (host framework):
`visit_none` yields `Ok(None)` (absent), `visit_some(d)` decodes the payload
with `T`'s decode (`tdec`, as a function of the sub-deserializer's slot) and
wraps it in `Some`. -/
def optionVisitor (tdec : Option Value → Except DeserializerError τ × Option Value) :
    DVisitor (Option τ) :=
  { defaultVisitor (Option τ) with
    visit_none := .ok none
    visit_some := fun s => ((tdec s).1.map some, (tdec s).2) }

/-- A concrete key decode used by the witnesses: recognizes the one-byte string
key `[107]`, reports any other string as an unknown field, and any non-string
key as a custom error. -/
def kdec0 : Value → Except DeserializerError Nat
  | .String s => if s = [107] then .ok 0 else .error (.UnknownField s)
  | _ => .error (.Custom [])

/-- The tree of calls `impl Serialize for Value` (src/lib.rs lines 368-396)
makes against the push-style `Serializer` contract: one event per primitive
emission, with composite events carrying their recursively encoded children. -/
inductive SerEvent where
  | bool (b : Bool)
  | usize (n : Nat)
  | u8 (n : Nat)
  | u16 (n : Nat)
  | u32 (n : Nat)
  | u64 (n : Nat)
  | isize (n : Int)
  | i8 (n : Int)
  | i16 (n : Int)
  | i32 (n : Int)
  | i64 (n : Int)
  | f32 (x : Fp)
  | f64 (x : Fp)
  | char (c : Nat)
  | str (s : Str)
  | unit
  | unitStruct (s : Str)
  | none
  | some (e : SerEvent)
  | newtypeStruct (name : Str) (e : SerEvent)
  | seq (es : List SerEvent)
  | map (ps : List (SerEvent × SerEvent))
  | bytes (bs : List Nat)

mutual

/-- `impl Serialize for Value` (src/lib.rs lines 368-396): each variant emits
exactly one event; `Option`/`Newtype` wrap a recursive encode (`Newtype` with
the empty name placeholder); `Seq`/`Map` emit their elements in order via the
`Vec`/`BTreeMap` Serialize impls. -/
def serializeV : Value → SerEvent
  | .Bool b => .bool b
  | .Usize n => .usize n
  | .U8 n => .u8 n
  | .U16 n => .u16 n
  | .U32 n => .u32 n
  | .U64 n => .u64 n
  | .Isize n => .isize n
  | .I8 n => .i8 n
  | .I16 n => .i16 n
  | .I32 n => .i32 n
  | .I64 n => .i64 n
  | .F32 x => .f32 x
  | .F64 x => .f64 x
  | .Char c => .char c
  | .String s => .str s
  | .Unit => .unit
  | .UnitStruct s => .unitStruct s
  | .Option Option.none => .none
  | .Option (Option.some v) => .some (serializeV v)
  | .Newtype v => .newtypeStruct [] (serializeV v)
  | .Seq l => .seq (serializeL l)
  | .Map m => .map (serializeP m)
  | .Bytes b => .bytes b

/-- `Vec<Value>::serialize`: elementwise, in order. -/
def serializeL : List Value → List SerEvent
  | [] => []
  | v :: rest => serializeV v :: serializeL rest

/-- `BTreeMap<Value, Value>::serialize`: each key then value, in ascending
iteration order. -/
def serializeP : List (Value × Value) → List (SerEvent × SerEvent)
  | [] => []
  | (k, v) :: rest => (serializeV k, serializeV v) :: serializeP rest

end

mutual

/-- Decoding an event stream into a `Value` through `ValueVisitor`
(src/lib.rs lines 252-366): each primitive event builds the matching variant;
`visit_some`/`visit_newtype_struct` decode the payload recursively; a sequence
is collected elementwise (`VecVisitor`); a map is collected by inserting each
decoded pair into a fresh `BTreeMap` (`BTreeMapVisitor`). -/
def deserializeValue : SerEvent → Value
  | .bool b => .Bool b
  | .usize n => .Usize n
  | .u8 n => .U8 n
  | .u16 n => .U16 n
  | .u32 n => .U32 n
  | .u64 n => .U64 n
  | .isize n => .Isize n
  | .i8 n => .I8 n
  | .i16 n => .I16 n
  | .i32 n => .I32 n
  | .i64 n => .I64 n
  | .f32 x => .F32 x
  | .f64 x => .F64 x
  | .char c => .Char c
  | .str s => .String s
  | .unit => .Unit
  | .unitStruct s => .UnitStruct s
  | .none => .Option Option.none
  | .some e => .Option (Option.some (deserializeValue e))
  | .newtypeStruct _ e => .Newtype (deserializeValue e)
  | .seq es => .Seq (deserializeL es)
  | .map ps => .Map ((deserializeP ps).foldl (fun m p => btreeInsert m p.1 p.2) [])
  | .bytes bs => .Bytes bs

/-- `VecVisitor`: collect the decoded elements in order. -/
def deserializeL : List SerEvent → List Value
  | [] => []
  | e :: rest => deserializeValue e :: deserializeL rest

/-- Pairwise decode of the map events, in order. -/
def deserializeP : List (SerEvent × SerEvent) → List (Value × Value)
  | [] => []
  | (k, v) :: rest => (deserializeValue k, deserializeValue v) :: deserializeP rest

end

/-- Every key of the later pairs compares strictly greater than `k`
(one level of the ascending `BTreeMap` invariant). -/
def keysAbove (k : Value) : List (Value × Value) → Bool
  | [] => true
  | (k', _) :: rest =>
    match cmpV k' k with
    | .gt => keysAbove k rest
    | _ => false

/-- The pair sequence is strictly ascending by key, as a `BTreeMap`'s
iteration always is. -/
def keysSorted : List (Value × Value) → Bool
  | [] => true
  | (k, _) :: rest => keysAbove k rest && keysSorted rest

mutual

/-- A `Value` constructible by the crate: every `Map` node holds a strictly
ascending pair sequence (the `BTreeMap` invariant), recursively. -/
def isNormal : Value → Bool
  | .Option (Option.some v) => isNormal v
  | .Newtype v => isNormal v
  | .Seq l => isNormalL l
  | .Map m => keysSorted m && isNormalP m
  | _ => true

def isNormalL : List Value → Bool
  | [] => true
  | v :: rest => isNormal v && isNormalL rest

def isNormalP : List (Value × Value) → Bool
  | [] => true
  | (k, v) :: rest => isNormal k && isNormal v && isNormalP rest

end

set_option maxHeartbeats 2000000

theorem ncmp_eq_iff {a b : Nat} : ncmp a b = .eq ↔ a = b := by
  unfold ncmp
  rcases Nat.lt_trichotomy a b with h | h | h <;> simp [h] <;> omega

theorem ncmp_lt_iff {a b : Nat} : ncmp a b = .lt ↔ a < b := by
  unfold ncmp
  rcases Nat.lt_trichotomy a b with h | h | h <;> simp [h] <;> omega

theorem ncmp_gt_iff {a b : Nat} : ncmp a b = .gt ↔ b < a := by
  unfold ncmp
  rcases Nat.lt_trichotomy a b with h | h | h <;> simp [h] <;> omega

theorem icmp_eq_iff {a b : Int} : icmp a b = .eq ↔ a = b := by
  unfold icmp
  rcases Int.lt_trichotomy a b with h | h | h <;> simp [h] <;> omega

theorem icmp_lt_iff {a b : Int} : icmp a b = .lt ↔ a < b := by
  unfold icmp
  rcases Int.lt_trichotomy a b with h | h | h <;> simp [h] <;> omega

theorem bcmp_eq_iff {a b : Bool} : bcmp a b = .eq ↔ a = b := by
  cases a <;> cases b <;> simp [bcmp]

theorem bcmp_lt_trans {a b c : Bool} (h1 : bcmp a b = .lt) (h2 : bcmp b c = .lt) :
    bcmp a c = .lt := by
  cases a <;> cases b <;> cases c <;> simp_all [bcmp]

theorem ncmp_lt_trans {a b c : Nat} (h1 : ncmp a b = .lt) (h2 : ncmp b c = .lt) :
    ncmp a c = .lt := by
  rw [ncmp_lt_iff] at *; omega

theorem icmp_lt_trans {a b c : Int} (h1 : icmp a b = .lt) (h2 : icmp b c = .lt) :
    icmp a c = .lt := by
  rw [icmp_lt_iff] at *; omega

theorem Fp.cmp_eq_iff {a b : Fp} : Fp.cmp a b = .eq ↔ a = b := by
  cases a <;> cases b <;> simp [Fp.cmp, icmp_eq_iff]

theorem Fp.cmp_lt_trans {a b c : Fp} (h1 : Fp.cmp a b = .lt) (h2 : Fp.cmp b c = .lt) :
    Fp.cmp a c = .lt := by
  cases a <;> cases b <;> cases c <;> simp_all [Fp.cmp]
  exact icmp_lt_trans h1 h2

theorem Fp.beq_iff {a b : Fp} : Fp.beq a b = true ↔ a = b := by
  cases a <;> cases b <;> simp [Fp.beq]

theorem lexN_eq_iff : ∀ {a b : List Nat}, lexN a b = .eq ↔ a = b
  | [], [] => by simp [lexN]
  | [], _ :: _ => by simp [lexN]
  | _ :: _, [] => by simp [lexN]
  | a :: as, b :: bs => by
    simp [lexN, Ordering.then_eq_eq, ncmp_eq_iff, lexN_eq_iff (a := as) (b := bs)]

theorem lexN_lt_trans : ∀ {a b c : List Nat},
    lexN a b = .lt → lexN b c = .lt → lexN a c = .lt
  | [], [], _ :: _, _, _ => rfl
  | [], _ :: _, _ :: _, _, _ => rfl
  | a :: as, b :: bs, c :: cs, h1, h2 => by
    simp only [lexN, Ordering.then_eq_lt] at *
    rw [ncmp_lt_iff, ncmp_eq_iff] at *
    rcases h1 with h1 | ⟨rfl, h1⟩ <;> rcases h2 with h2 | ⟨rfl, h2⟩
    · exact Or.inl (Nat.lt_trans h1 h2)
    · exact Or.inl h1
    · exact Or.inl h2
    · exact Or.inr ⟨rfl, lexN_lt_trans h1 h2⟩

theorem pcmp_disc_ne : ∀ a b : Value, a.disc ≠ b.disc →
    pcmpV a b = some (ncmp a.disc b.disc) ∧ beqV a b = false := by
  intro a b h
  cases a <;> cases b <;> simp_all [pcmpV, beqV, Value.disc]

theorem disc_Bool (b : Value) (h : b.disc = 0) : ∃ x, b = .Bool x := by
  cases b <;> simp_all [Value.disc]

theorem disc_Usize (b : Value) (h : b.disc = 1) : ∃ x, b = .Usize x := by
  cases b <;> simp_all [Value.disc]

theorem disc_U8 (b : Value) (h : b.disc = 2) : ∃ x, b = .U8 x := by
  cases b <;> simp_all [Value.disc]

theorem disc_U16 (b : Value) (h : b.disc = 3) : ∃ x, b = .U16 x := by
  cases b <;> simp_all [Value.disc]

theorem disc_U32 (b : Value) (h : b.disc = 4) : ∃ x, b = .U32 x := by
  cases b <;> simp_all [Value.disc]

theorem disc_U64 (b : Value) (h : b.disc = 5) : ∃ x, b = .U64 x := by
  cases b <;> simp_all [Value.disc]

theorem disc_Isize (b : Value) (h : b.disc = 6) : ∃ x, b = .Isize x := by
  cases b <;> simp_all [Value.disc]

theorem disc_I8 (b : Value) (h : b.disc = 7) : ∃ x, b = .I8 x := by
  cases b <;> simp_all [Value.disc]

theorem disc_I16 (b : Value) (h : b.disc = 8) : ∃ x, b = .I16 x := by
  cases b <;> simp_all [Value.disc]

theorem disc_I32 (b : Value) (h : b.disc = 9) : ∃ x, b = .I32 x := by
  cases b <;> simp_all [Value.disc]

theorem disc_I64 (b : Value) (h : b.disc = 10) : ∃ x, b = .I64 x := by
  cases b <;> simp_all [Value.disc]

theorem disc_F32 (b : Value) (h : b.disc = 11) : ∃ x, b = .F32 x := by
  cases b <;> simp_all [Value.disc]

theorem disc_F64 (b : Value) (h : b.disc = 12) : ∃ x, b = .F64 x := by
  cases b <;> simp_all [Value.disc]

theorem disc_Char (b : Value) (h : b.disc = 13) : ∃ x, b = .Char x := by
  cases b <;> simp_all [Value.disc]

theorem disc_String (b : Value) (h : b.disc = 14) : ∃ x, b = .String x := by
  cases b <;> simp_all [Value.disc]

theorem disc_Unit (b : Value) (h : b.disc = 15) : b = .Unit := by
  cases b <;> simp_all [Value.disc]

theorem disc_UnitStruct (b : Value) (h : b.disc = 16) : ∃ x, b = .UnitStruct x := by
  cases b <;> simp_all [Value.disc]

theorem disc_Option (b : Value) (h : b.disc = 17) : ∃ x, b = .Option x := by
  cases b <;> simp_all [Value.disc]

theorem disc_Newtype (b : Value) (h : b.disc = 18) : ∃ x, b = .Newtype x := by
  cases b <;> simp_all [Value.disc]

theorem disc_Seq (b : Value) (h : b.disc = 19) : ∃ x, b = .Seq x := by
  cases b <;> simp_all [Value.disc]

theorem disc_Map (b : Value) (h : b.disc = 20) : ∃ x, b = .Map x := by
  cases b <;> simp_all [Value.disc]

theorem disc_Bytes (b : Value) (h : b.disc = 21) : ∃ x, b = .Bytes x := by
  cases b <;> simp_all [Value.disc]

theorem beqO_iff (o1 o2 : Option Value)
    (ih : ∀ x ∈ o1, ∀ y : Value, beqV x y = true ↔ x = y) :
    beqO o1 o2 = true ↔ o1 = o2 := by
  cases o1 <;> cases o2 <;> simp [beqO]
  exact ih _ rfl _

theorem beqL_iff (l1 l2 : List Value)
    (ih : ∀ x ∈ l1, ∀ y : Value, beqV x y = true ↔ x = y) :
    beqL l1 l2 = true ↔ l1 = l2 := by
  induction l1 generalizing l2 with
  | nil => cases l2 <;> simp [beqL]
  | cons a as ihl =>
    cases l2 with
    | nil => simp [beqL]
    | cons b bs =>
      have h1 := ih a (by simp)
      have h2 := ihl bs (fun x hx => ih x (by simp [hx]))
      simp [beqL, h1 b, h2]

theorem beqP_iff (l1 l2 : List (Value × Value))
    (ih : ∀ p ∈ l1, (∀ y : Value, beqV p.1 y = true ↔ p.1 = y) ∧
      (∀ y : Value, beqV p.2 y = true ↔ p.2 = y)) :
    beqP l1 l2 = true ↔ l1 = l2 := by
  induction l1 generalizing l2 with
  | nil => cases l2 <;> simp [beqP]
  | cons p ps ihl =>
    obtain ⟨k1, v1⟩ := p
    cases l2 with
    | nil => simp [beqP]
    | cons q qs =>
      obtain ⟨k2, v2⟩ := q
      have hk := (ih ⟨k1, v1⟩ (by simp)).1 k2
      have hv := (ih ⟨k1, v1⟩ (by simp)).2 v2
      have h2 := ihl qs (fun p hp => ih p (by simp [hp]))
      simp [beqP, hk, hv, h2, and_assoc]

theorem beqV_iff : ∀ a b : Value, beqV a b = true ↔ a = b := by
  suffices h : ∀ n (a : Value), sizeOf a ≤ n → ∀ b, beqV a b = true ↔ a = b by
    intro a b; exact h (sizeOf a) a le_rfl b
  intro n
  induction n using Nat.strong_induction_on with
  | _ n ih =>
    intro a ha b
    by_cases hd : a.disc = b.disc
    case neg =>
      rw [(pcmp_disc_ne a b hd).2]
      simp only [Bool.false_eq_true, false_iff]
      intro he; exact hd (he ▸ rfl)
    case pos =>
    have hsub : ∀ a' : Value, sizeOf a' < sizeOf a → ∀ b', beqV a' b' = true ↔ a' = b' :=
      fun a' h' b' => ih (sizeOf a') (Nat.lt_of_lt_of_le h' ha) a' le_rfl b'
    cases a with
    | Bool x =>
      obtain ⟨y, rfl⟩ := disc_Bool b (by simpa [Value.disc] using hd.symm)
      simp [beqV]
    | Usize x =>
      obtain ⟨y, rfl⟩ := disc_Usize b (by simpa [Value.disc] using hd.symm)
      simp [beqV]
    | U8 x =>
      obtain ⟨y, rfl⟩ := disc_U8 b (by simpa [Value.disc] using hd.symm)
      simp [beqV]
    | U16 x =>
      obtain ⟨y, rfl⟩ := disc_U16 b (by simpa [Value.disc] using hd.symm)
      simp [beqV]
    | U32 x =>
      obtain ⟨y, rfl⟩ := disc_U32 b (by simpa [Value.disc] using hd.symm)
      simp [beqV]
    | U64 x =>
      obtain ⟨y, rfl⟩ := disc_U64 b (by simpa [Value.disc] using hd.symm)
      simp [beqV]
    | Isize x =>
      obtain ⟨y, rfl⟩ := disc_Isize b (by simpa [Value.disc] using hd.symm)
      simp [beqV]
    | I8 x =>
      obtain ⟨y, rfl⟩ := disc_I8 b (by simpa [Value.disc] using hd.symm)
      simp [beqV]
    | I16 x =>
      obtain ⟨y, rfl⟩ := disc_I16 b (by simpa [Value.disc] using hd.symm)
      simp [beqV]
    | I32 x =>
      obtain ⟨y, rfl⟩ := disc_I32 b (by simpa [Value.disc] using hd.symm)
      simp [beqV]
    | I64 x =>
      obtain ⟨y, rfl⟩ := disc_I64 b (by simpa [Value.disc] using hd.symm)
      simp [beqV]
    | F32 x =>
      obtain ⟨y, rfl⟩ := disc_F32 b (by simpa [Value.disc] using hd.symm)
      simp [beqV, Fp.beq_iff]
    | F64 x =>
      obtain ⟨y, rfl⟩ := disc_F64 b (by simpa [Value.disc] using hd.symm)
      simp [beqV, Fp.beq_iff]
    | Char x =>
      obtain ⟨y, rfl⟩ := disc_Char b (by simpa [Value.disc] using hd.symm)
      simp [beqV]
    | String x =>
      obtain ⟨y, rfl⟩ := disc_String b (by simpa [Value.disc] using hd.symm)
      simp [beqV]
    | Unit =>
      rw [disc_Unit b (by simpa [Value.disc] using hd.symm)]
      simp [beqV]
    | UnitStruct x =>
      obtain ⟨y, rfl⟩ := disc_UnitStruct b (by simpa [Value.disc] using hd.symm)
      simp [beqV]
    | Option o =>
      obtain ⟨o', rfl⟩ := disc_Option b (by simpa [Value.disc] using hd.symm)
      have ho : beqO o o' = true ↔ o = o' := by
        refine beqO_iff o o' (fun x hx => ?_)
        refine hsub x ?_
        cases o with
        | none => cases hx
        | some v =>
          have hxv : v = x := by simpa using hx
          subst hxv
          simp
          omega
      simp [beqV, ho]
    | Newtype v =>
      obtain ⟨w, rfl⟩ := disc_Newtype b (by simpa [Value.disc] using hd.symm)
      have hv : beqV v w = true ↔ v = w := hsub v (by simp) w
      simp [beqV, hv]
    | Seq l =>
      obtain ⟨l', rfl⟩ := disc_Seq b (by simpa [Value.disc] using hd.symm)
      have hl : beqL l l' = true ↔ l = l' := by
        refine beqL_iff l l' (fun x hx => ?_)
        refine hsub x ?_
        have := List.sizeOf_lt_of_mem hx
        simp
        omega
      simp [beqV, hl]
    | Map m =>
      obtain ⟨m', rfl⟩ := disc_Map b (by simpa [Value.disc] using hd.symm)
      have hm : beqP m m' = true ↔ m = m' := by
        refine beqP_iff m m' (fun p hp => ?_)
        obtain ⟨k, v⟩ := p
        have := List.sizeOf_lt_of_mem hp
        simp at this
        constructor
        · exact fun y => hsub k (by simp; omega) y
        · exact fun y => hsub v (by simp; omega) y
      simp [beqV, hm]
    | Bytes x =>
      obtain ⟨y, rfl⟩ := disc_Bytes b (by simpa [Value.disc] using hd.symm)
      simp [beqV]

theorem pcmpO_eq_iff (o1 o2 : Option Value)
    (ih : ∀ x ∈ o1, ∀ y : Value, pcmpV x y = some .eq ↔ x = y) :
    pcmpO o1 o2 = some .eq ↔ o1 = o2 := by
  cases o1 <;> cases o2 <;> simp [pcmpO]
  exact ih _ rfl _

theorem pcmpS_eq_iff (l1 l2 : List Value)
    (ih : ∀ x ∈ l1, ∀ y : Value, pcmpV x y = some .eq ↔ x = y) :
    pcmpS l1 l2 = some .eq ↔ l1 = l2 := by
  induction l1 generalizing l2 with
  | nil => cases l2 <;> simp [pcmpS]
  | cons a as ihl =>
    cases l2 with
    | nil => simp [pcmpS]
    | cons b bs =>
      by_cases hab : a = b
      · subst hab
        have ha : pcmpV a a = some .eq := (ih a (by simp) a).2 rfl
        simp [pcmpS, ha, ihl bs (fun x hx => ih x (by simp [hx]))]
      · have ha : pcmpV a b ≠ some .eq := fun h => hab ((ih a (by simp) b).1 h)
        rcases hpc : pcmpV a b with _ | o
        · simp [pcmpS, hpc, hab]
        · cases o with
          | lt => simp [pcmpS, hpc, hab]
          | eq => exact absurd hpc ha
          | gt => simp [pcmpS, hpc, hab]

theorem pcmpM_eq_iff (l1 l2 : List (Value × Value))
    (ih : ∀ p ∈ l1, (∀ y : Value, pcmpV p.1 y = some .eq ↔ p.1 = y) ∧
      (∀ y : Value, pcmpV p.2 y = some .eq ↔ p.2 = y)) :
    pcmpM l1 l2 = some .eq ↔ l1 = l2 := by
  induction l1 generalizing l2 with
  | nil => cases l2 <;> simp [pcmpM]
  | cons p ps ihl =>
    obtain ⟨k1, v1⟩ := p
    cases l2 with
    | nil => simp [pcmpM]
    | cons q qs =>
      obtain ⟨k2, v2⟩ := q
      have ihk := (ih ⟨k1, v1⟩ (by simp)).1
      have ihv := (ih ⟨k1, v1⟩ (by simp)).2
      by_cases hk : k1 = k2
      · subst hk
        have hkk : pcmpV k1 k1 = some .eq := (ihk k1).2 rfl
        by_cases hv : v1 = v2
        · subst hv
          have hvv : pcmpV v1 v1 = some .eq := (ihv v1).2 rfl
          simp [pcmpM, hkk, hvv, ihl qs (fun p hp => ih p (by simp [hp]))]
        · have hvne : pcmpV v1 v2 ≠ some .eq := fun h => hv ((ihv v2).1 h)
          rcases hpc : pcmpV v1 v2 with _ | o
          · simp [pcmpM, hkk, hpc, hv]
          · cases o with
            | lt => simp [pcmpM, hkk, hpc, hv]
            | eq => exact absurd hpc hvne
            | gt => simp [pcmpM, hkk, hpc, hv]
      · have hkne : pcmpV k1 k2 ≠ some .eq := fun h => hk ((ihk k2).1 h)
        rcases hpc : pcmpV k1 k2 with _ | o
        · simp [pcmpM, hpc, hk]
        · cases o with
          | lt => simp [pcmpM, hpc, hk]
          | eq => exact absurd hpc hkne
          | gt => simp [pcmpM, hpc, hk]

theorem pcmpV_eq_iff : ∀ a b : Value, pcmpV a b = some .eq ↔ a = b := by
  suffices h : ∀ n (a : Value), sizeOf a ≤ n → ∀ b, pcmpV a b = some .eq ↔ a = b by
    intro a b; exact h (sizeOf a) a le_rfl b
  intro n
  induction n using Nat.strong_induction_on with
  | _ n ih =>
    intro a ha b
    by_cases hd : a.disc = b.disc
    case neg =>
      rw [(pcmp_disc_ne a b hd).1]
      simp only [Option.some.injEq]
      constructor
      · intro he; exact absurd (ncmp_eq_iff.1 he) hd
      · intro he; exact absurd (he ▸ rfl) hd
    case pos =>
    have hsub : ∀ a' : Value, sizeOf a' < sizeOf a → ∀ b', pcmpV a' b' = some .eq ↔ a' = b' :=
      fun a' h' b' => ih (sizeOf a') (Nat.lt_of_lt_of_le h' ha) a' le_rfl b'
    cases a with
    | Bool x =>
      obtain ⟨y, rfl⟩ := disc_Bool b (by simpa [Value.disc] using hd.symm)
      simp [pcmpV, bcmp_eq_iff]
    | Usize x =>
      obtain ⟨y, rfl⟩ := disc_Usize b (by simpa [Value.disc] using hd.symm)
      simp [pcmpV, ncmp_eq_iff]
    | U8 x =>
      obtain ⟨y, rfl⟩ := disc_U8 b (by simpa [Value.disc] using hd.symm)
      simp [pcmpV, ncmp_eq_iff]
    | U16 x =>
      obtain ⟨y, rfl⟩ := disc_U16 b (by simpa [Value.disc] using hd.symm)
      simp [pcmpV, ncmp_eq_iff]
    | U32 x =>
      obtain ⟨y, rfl⟩ := disc_U32 b (by simpa [Value.disc] using hd.symm)
      simp [pcmpV, ncmp_eq_iff]
    | U64 x =>
      obtain ⟨y, rfl⟩ := disc_U64 b (by simpa [Value.disc] using hd.symm)
      simp [pcmpV, ncmp_eq_iff]
    | Isize x =>
      obtain ⟨y, rfl⟩ := disc_Isize b (by simpa [Value.disc] using hd.symm)
      simp [pcmpV, icmp_eq_iff]
    | I8 x =>
      obtain ⟨y, rfl⟩ := disc_I8 b (by simpa [Value.disc] using hd.symm)
      simp [pcmpV, icmp_eq_iff]
    | I16 x =>
      obtain ⟨y, rfl⟩ := disc_I16 b (by simpa [Value.disc] using hd.symm)
      simp [pcmpV, icmp_eq_iff]
    | I32 x =>
      obtain ⟨y, rfl⟩ := disc_I32 b (by simpa [Value.disc] using hd.symm)
      simp [pcmpV, icmp_eq_iff]
    | I64 x =>
      obtain ⟨y, rfl⟩ := disc_I64 b (by simpa [Value.disc] using hd.symm)
      simp [pcmpV, icmp_eq_iff]
    | F32 x =>
      obtain ⟨y, rfl⟩ := disc_F32 b (by simpa [Value.disc] using hd.symm)
      simp [pcmpV, Fp.cmp_eq_iff]
    | F64 x =>
      obtain ⟨y, rfl⟩ := disc_F64 b (by simpa [Value.disc] using hd.symm)
      simp [pcmpV, Fp.cmp_eq_iff]
    | Char x =>
      obtain ⟨y, rfl⟩ := disc_Char b (by simpa [Value.disc] using hd.symm)
      simp [pcmpV, ncmp_eq_iff]
    | String x =>
      obtain ⟨y, rfl⟩ := disc_String b (by simpa [Value.disc] using hd.symm)
      simp [pcmpV, lexN_eq_iff]
    | Unit =>
      rw [disc_Unit b (by simpa [Value.disc] using hd.symm)]
      simp [pcmpV]
    | UnitStruct x =>
      obtain ⟨y, rfl⟩ := disc_UnitStruct b (by simpa [Value.disc] using hd.symm)
      simp [pcmpV, lexN_eq_iff]
    | Option o =>
      obtain ⟨o', rfl⟩ := disc_Option b (by simpa [Value.disc] using hd.symm)
      have ho : pcmpO o o' = some .eq ↔ o = o' := by
        refine pcmpO_eq_iff o o' (fun x hx => ?_)
        refine hsub x ?_
        cases o with
        | none => cases hx
        | some v =>
          have hxv : v = x := by simpa using hx
          subst hxv
          simp
          omega
      simp [pcmpV, ho]
    | Newtype v =>
      obtain ⟨w, rfl⟩ := disc_Newtype b (by simpa [Value.disc] using hd.symm)
      have hv : pcmpV v w = some .eq ↔ v = w := hsub v (by simp) w
      simp [pcmpV, hv]
    | Seq l =>
      obtain ⟨l', rfl⟩ := disc_Seq b (by simpa [Value.disc] using hd.symm)
      have hl : pcmpS l l' = some .eq ↔ l = l' := by
        refine pcmpS_eq_iff l l' (fun x hx => ?_)
        refine hsub x ?_
        have := List.sizeOf_lt_of_mem hx
        simp
        omega
      simp [pcmpV, hl]
    | Map m =>
      obtain ⟨m', rfl⟩ := disc_Map b (by simpa [Value.disc] using hd.symm)
      have hm : pcmpM m m' = some .eq ↔ m = m' := by
        refine pcmpM_eq_iff m m' (fun p hp => ?_)
        obtain ⟨k, v⟩ := p
        have := List.sizeOf_lt_of_mem hp
        simp at this
        constructor
        · exact fun y => hsub k (by simp; omega) y
        · exact fun y => hsub v (by simp; omega) y
      simp [pcmpV, hm]
    | Bytes x =>
      obtain ⟨y, rfl⟩ := disc_Bytes b (by simpa [Value.disc] using hd.symm)
      simp [pcmpV, lexN_eq_iff]

theorem pcmpO_isSome (o1 o2 : Option Value)
    (ih : ∀ x ∈ o1, ∀ y : Value, (pcmpV x y).isSome) :
    (pcmpO o1 o2).isSome := by
  cases o1 <;> cases o2 <;> simp [pcmpO]
  exact ih _ rfl _

theorem pcmpS_isSome (l1 l2 : List Value)
    (ih : ∀ x ∈ l1, ∀ y : Value, (pcmpV x y).isSome) :
    (pcmpS l1 l2).isSome := by
  induction l1 generalizing l2 with
  | nil => cases l2 <;> simp [pcmpS]
  | cons a as ihl =>
    cases l2 with
    | nil => simp [pcmpS]
    | cons b bs =>
      rcases hpc : pcmpV a b with _ | o
      · have := ih a (by simp) b
        simp [hpc] at this
      · cases o with
        | lt => simp [pcmpS, hpc]
        | eq => simpa [pcmpS, hpc] using ihl bs (fun x hx => ih x (by simp [hx]))
        | gt => simp [pcmpS, hpc]

theorem pcmpM_isSome (l1 l2 : List (Value × Value))
    (ih : ∀ p ∈ l1, (∀ y : Value, (pcmpV p.1 y).isSome) ∧
      (∀ y : Value, (pcmpV p.2 y).isSome)) :
    (pcmpM l1 l2).isSome := by
  induction l1 generalizing l2 with
  | nil => cases l2 <;> simp [pcmpM]
  | cons p ps ihl =>
    obtain ⟨k1, v1⟩ := p
    cases l2 with
    | nil => simp [pcmpM]
    | cons q qs =>
      obtain ⟨k2, v2⟩ := q
      rcases hpk : pcmpV k1 k2 with _ | ok
      · have := (ih ⟨k1, v1⟩ (by simp)).1 k2
        simp [hpk] at this
      · cases ok with
        | lt => simp [pcmpM, hpk]
        | gt => simp [pcmpM, hpk]
        | eq =>
          rcases hpv : pcmpV v1 v2 with _ | ov
          · have := (ih ⟨k1, v1⟩ (by simp)).2 v2
            simp [hpv] at this
          · cases ov with
            | lt => simp [pcmpM, hpk, hpv]
            | gt => simp [pcmpM, hpk, hpv]
            | eq =>
              simpa [pcmpM, hpk, hpv] using ihl qs (fun p hp => ih p (by simp [hp]))

theorem pcmpV_isSome : ∀ a b : Value, (pcmpV a b).isSome := by
  suffices h : ∀ n (a : Value), sizeOf a ≤ n → ∀ b, (pcmpV a b).isSome by
    intro a b; exact h (sizeOf a) a le_rfl b
  intro n
  induction n using Nat.strong_induction_on with
  | _ n ih =>
    intro a ha b
    by_cases hd : a.disc = b.disc
    case neg => rw [(pcmp_disc_ne a b hd).1]; rfl
    case pos =>
    have hsub : ∀ a' : Value, sizeOf a' < sizeOf a → ∀ b', (pcmpV a' b').isSome :=
      fun a' h' b' => ih (sizeOf a') (Nat.lt_of_lt_of_le h' ha) a' le_rfl b'
    cases a with
    | Bool x =>
      obtain ⟨y, rfl⟩ := disc_Bool b (by simpa [Value.disc] using hd.symm)
      simp [pcmpV]
    | Usize x =>
      obtain ⟨y, rfl⟩ := disc_Usize b (by simpa [Value.disc] using hd.symm)
      simp [pcmpV]
    | U8 x =>
      obtain ⟨y, rfl⟩ := disc_U8 b (by simpa [Value.disc] using hd.symm)
      simp [pcmpV]
    | U16 x =>
      obtain ⟨y, rfl⟩ := disc_U16 b (by simpa [Value.disc] using hd.symm)
      simp [pcmpV]
    | U32 x =>
      obtain ⟨y, rfl⟩ := disc_U32 b (by simpa [Value.disc] using hd.symm)
      simp [pcmpV]
    | U64 x =>
      obtain ⟨y, rfl⟩ := disc_U64 b (by simpa [Value.disc] using hd.symm)
      simp [pcmpV]
    | Isize x =>
      obtain ⟨y, rfl⟩ := disc_Isize b (by simpa [Value.disc] using hd.symm)
      simp [pcmpV]
    | I8 x =>
      obtain ⟨y, rfl⟩ := disc_I8 b (by simpa [Value.disc] using hd.symm)
      simp [pcmpV]
    | I16 x =>
      obtain ⟨y, rfl⟩ := disc_I16 b (by simpa [Value.disc] using hd.symm)
      simp [pcmpV]
    | I32 x =>
      obtain ⟨y, rfl⟩ := disc_I32 b (by simpa [Value.disc] using hd.symm)
      simp [pcmpV]
    | I64 x =>
      obtain ⟨y, rfl⟩ := disc_I64 b (by simpa [Value.disc] using hd.symm)
      simp [pcmpV]
    | F32 x =>
      obtain ⟨y, rfl⟩ := disc_F32 b (by simpa [Value.disc] using hd.symm)
      simp [pcmpV]
    | F64 x =>
      obtain ⟨y, rfl⟩ := disc_F64 b (by simpa [Value.disc] using hd.symm)
      simp [pcmpV]
    | Char x =>
      obtain ⟨y, rfl⟩ := disc_Char b (by simpa [Value.disc] using hd.symm)
      simp [pcmpV]
    | String x =>
      obtain ⟨y, rfl⟩ := disc_String b (by simpa [Value.disc] using hd.symm)
      simp [pcmpV]
    | Unit =>
      rw [disc_Unit b (by simpa [Value.disc] using hd.symm)]
      simp [pcmpV]
    | UnitStruct x =>
      obtain ⟨y, rfl⟩ := disc_UnitStruct b (by simpa [Value.disc] using hd.symm)
      simp [pcmpV]
    | Option o =>
      obtain ⟨o', rfl⟩ := disc_Option b (by simpa [Value.disc] using hd.symm)
      have ho : (pcmpO o o').isSome := by
        refine pcmpO_isSome o o' (fun x hx => ?_)
        refine hsub x ?_
        cases o with
        | none => cases hx
        | some v =>
          have hxv : v = x := by simpa using hx
          subst hxv
          simp
          omega
      simpa [pcmpV] using ho
    | Newtype v =>
      obtain ⟨w, rfl⟩ := disc_Newtype b (by simpa [Value.disc] using hd.symm)
      simpa [pcmpV] using hsub v (by simp) w
    | Seq l =>
      obtain ⟨l', rfl⟩ := disc_Seq b (by simpa [Value.disc] using hd.symm)
      have hl : (pcmpS l l').isSome := by
        refine pcmpS_isSome l l' (fun x hx => ?_)
        refine hsub x ?_
        have := List.sizeOf_lt_of_mem hx
        simp
        omega
      simpa [pcmpV] using hl
    | Map m =>
      obtain ⟨m', rfl⟩ := disc_Map b (by simpa [Value.disc] using hd.symm)
      have hm : (pcmpM m m').isSome := by
        refine pcmpM_isSome m m' (fun p hp => ?_)
        obtain ⟨k, v⟩ := p
        have := List.sizeOf_lt_of_mem hp
        simp at this
        constructor
        · exact fun y => hsub k (by simp; omega) y
        · exact fun y => hsub v (by simp; omega) y
      simpa [pcmpV] using hm
    | Bytes x =>
      obtain ⟨y, rfl⟩ := disc_Bytes b (by simpa [Value.disc] using hd.symm)
      simp [pcmpV]

theorem pcmpO_lt_trans (o1 o2 o3 : Option Value)
    (ihT : ∀ x ∈ o1, ∀ y z : Value,
      pcmpV x y = some .lt → pcmpV y z = some .lt → pcmpV x z = some .lt)
    (h1 : pcmpO o1 o2 = some .lt) (h2 : pcmpO o2 o3 = some .lt) :
    pcmpO o1 o3 = some .lt := by
  cases o1 <;> cases o2 <;> cases o3 <;> simp_all [pcmpO]
  exact ihT _ _ h1 h2

theorem pcmpS_lt_trans : ∀ (l1 l2 l3 : List Value),
    (∀ x ∈ l1, ∀ y z : Value,
      pcmpV x y = some .lt → pcmpV y z = some .lt → pcmpV x z = some .lt) →
    pcmpS l1 l2 = some .lt → pcmpS l2 l3 = some .lt → pcmpS l1 l3 = some .lt := by
  intro l1
  induction l1 with
  | nil =>
    intro l2 l3 _ h1 h2
    cases l2 with
    | nil => simp [pcmpS] at h1
    | cons b bs =>
      cases l3 with
      | nil => simp [pcmpS] at h2
      | cons c cs => simp [pcmpS]
  | cons a as ihl =>
    intro l2 l3 ihT h1 h2
    cases l2 with
    | nil => simp [pcmpS] at h1
    | cons b bs =>
      cases l3 with
      | nil => simp [pcmpS] at h2
      | cons c cs =>
        rcases hab : pcmpV a b with _ | o
        · simp [pcmpS, hab] at h1
        · cases o with
          | gt => simp [pcmpS, hab] at h1
          | lt =>
            rcases hbc : pcmpV b c with _ | o2
            · simp [pcmpS, hbc] at h2
            · cases o2 with
              | gt => simp [pcmpS, hbc] at h2
              | lt =>
                have hac := ihT a (by simp) b c hab hbc
                simp [pcmpS, hac]
              | eq =>
                have hbc' : b = c := (pcmpV_eq_iff b c).1 hbc
                subst hbc'
                simp [pcmpS, hab]
          | eq =>
            have hab' : a = b := (pcmpV_eq_iff a b).1 hab
            subst hab'
            simp only [pcmpS, hab] at h1
            rcases hac : pcmpV a c with _ | o2
            · simp [pcmpS, hac] at h2
            · cases o2 with
              | gt => simp [pcmpS, hac] at h2
              | lt => simp [pcmpS, hac]
              | eq =>
                have hac' : a = c := (pcmpV_eq_iff a c).1 hac
                subst hac'
                simp only [pcmpS, hac] at h2
                have := ihl bs cs (fun x hx => ihT x (by simp [hx])) h1 h2
                simp [pcmpS, hac, this]

theorem pcmpM_lt_trans : ∀ (l1 l2 l3 : List (Value × Value)),
    (∀ p ∈ l1, (∀ y z : Value,
        pcmpV p.1 y = some .lt → pcmpV y z = some .lt → pcmpV p.1 z = some .lt) ∧
      (∀ y z : Value,
        pcmpV p.2 y = some .lt → pcmpV y z = some .lt → pcmpV p.2 z = some .lt)) →
    pcmpM l1 l2 = some .lt → pcmpM l2 l3 = some .lt → pcmpM l1 l3 = some .lt := by
  intro l1
  induction l1 with
  | nil =>
    intro l2 l3 _ h1 h2
    cases l2 with
    | nil => simp [pcmpM] at h1
    | cons q qs =>
      obtain ⟨k2, v2⟩ := q
      cases l3 with
      | nil => simp [pcmpM] at h2
      | cons r rs => simp [pcmpM]
  | cons p ps ihl =>
    intro l2 l3 ihT h1 h2
    obtain ⟨k1, v1⟩ := p
    cases l2 with
    | nil => simp [pcmpM] at h1
    | cons q qs =>
      obtain ⟨k2, v2⟩ := q
      cases l3 with
      | nil => simp [pcmpM] at h2
      | cons r rs =>
        obtain ⟨k3, v3⟩ := r
        rcases hk12 : pcmpV k1 k2 with _ | o
        · simp [pcmpM, hk12] at h1
        · cases o with
          | gt => simp [pcmpM, hk12] at h1
          | lt =>
            rcases hk23 : pcmpV k2 k3 with _ | o2
            · simp [pcmpM, hk23] at h2
            · cases o2 with
              | gt => simp [pcmpM, hk23] at h2
              | lt =>
                have hk13 := (ihT ⟨k1, v1⟩ (by simp)).1 k2 k3 hk12 hk23
                simp [pcmpM, hk13]
              | eq =>
                have he : k2 = k3 := (pcmpV_eq_iff k2 k3).1 hk23
                subst he
                simp [pcmpM, hk12]
          | eq =>
            have he : k1 = k2 := (pcmpV_eq_iff k1 k2).1 hk12
            subst he
            simp only [pcmpM, hk12] at h1
            rcases hv12 : pcmpV v1 v2 with _ | o2
            · simp [hv12] at h1
            · cases o2 with
              | gt => simp [hv12] at h1
              | lt =>
                rcases hk13 : pcmpV k1 k3 with _ | o3
                · simp [pcmpM, hk13] at h2
                · cases o3 with
                  | gt => simp [pcmpM, hk13] at h2
                  | lt => simp [pcmpM, hk13]
                  | eq =>
                    have he : k1 = k3 := (pcmpV_eq_iff k1 k3).1 hk13
                    subst he
                    simp only [pcmpM, hk13] at h2
                    rcases hv23 : pcmpV v2 v3 with _ | o4
                    · simp [hv23] at h2
                    · cases o4 with
                      | gt => simp [hv23] at h2
                      | lt =>
                        have hv13 := (ihT ⟨k1, v1⟩ (by simp)).2 v2 v3 (by simpa [hv12] using h1) hv23
                        simp [pcmpM, hk13, hv13]
                      | eq =>
                        have he : v2 = v3 := (pcmpV_eq_iff v2 v3).1 hv23
                        subst he
                        simp only [hv12] at h1
                        simp [pcmpM, hk13, hv12, h1]
              | eq =>
                have he : v1 = v2 := (pcmpV_eq_iff v1 v2).1 hv12
                subst he
                simp only [hv12] at h1
                rcases hk13 : pcmpV k1 k3 with _ | o3
                · simp [pcmpM, hk13] at h2
                · cases o3 with
                  | gt => simp [pcmpM, hk13] at h2
                  | lt => simp [pcmpM, hk13]
                  | eq =>
                    have he : k1 = k3 := (pcmpV_eq_iff k1 k3).1 hk13
                    subst he
                    simp only [pcmpM, hk13] at h2
                    rcases hv13 : pcmpV v1 v3 with _ | o4
                    · simp [hv13] at h2
                    · cases o4 with
                      | gt => simp [hv13] at h2
                      | lt => simp [pcmpM, hk13, hv13]
                      | eq =>
                        simp only [hv13] at h2
                        have := ihl qs rs (fun p hp => ihT p (by simp [hp])) h1 h2
                        simp [pcmpM, hk13, hv13, this]

theorem pcmpV_lt_trans : ∀ a b c : Value,
    pcmpV a b = some .lt → pcmpV b c = some .lt → pcmpV a c = some .lt := by
  suffices h : ∀ n (a : Value), sizeOf a ≤ n → ∀ b c,
      pcmpV a b = some .lt → pcmpV b c = some .lt → pcmpV a c = some .lt by
    intro a b c; exact h (sizeOf a) a le_rfl b c
  intro n
  induction n using Nat.strong_induction_on with
  | _ n ih =>
    intro a ha b c h1 h2
    by_cases hab : a.disc = b.disc
    case neg =>
      by_cases hbc : b.disc = c.disc
      case neg =>
        rw [(pcmp_disc_ne a b hab).1] at h1
        rw [(pcmp_disc_ne b c hbc).1] at h2
        have l1 : a.disc < b.disc := ncmp_lt_iff.1 (Option.some.inj h1)
        have l2 : b.disc < c.disc := ncmp_lt_iff.1 (Option.some.inj h2)
        have hac : a.disc ≠ c.disc := by omega
        rw [(pcmp_disc_ne a c hac).1]
        have hn : ncmp a.disc c.disc = .lt := ncmp_lt_iff.2 (by omega)
        rw [hn]
      case pos =>
        rw [(pcmp_disc_ne a b hab).1] at h1
        have l1 : a.disc < b.disc := ncmp_lt_iff.1 (Option.some.inj h1)
        have hac : a.disc ≠ c.disc := by omega
        rw [(pcmp_disc_ne a c hac).1]
        have hn : ncmp a.disc c.disc = .lt := ncmp_lt_iff.2 (by omega)
        rw [hn]
    case pos =>
    by_cases hbc : b.disc = c.disc
    case neg =>
      rw [(pcmp_disc_ne b c hbc).1] at h2
      have l2 : b.disc < c.disc := ncmp_lt_iff.1 (Option.some.inj h2)
      have hac : a.disc ≠ c.disc := by omega
      rw [(pcmp_disc_ne a c hac).1]
      have hn : ncmp a.disc c.disc = .lt := ncmp_lt_iff.2 (by omega)
      rw [hn]
    case pos =>
    have hsub : ∀ a' : Value, sizeOf a' < sizeOf a → ∀ y z,
        pcmpV a' y = some .lt → pcmpV y z = some .lt → pcmpV a' z = some .lt :=
      fun a' h' => ih (sizeOf a') (Nat.lt_of_lt_of_le h' ha) a' le_rfl
    cases a with
    | Bool x =>
      obtain ⟨y, rfl⟩ := disc_Bool b (by simpa [Value.disc] using hab.symm)
      obtain ⟨z, rfl⟩ := disc_Bool c (by simpa [Value.disc] using hbc.symm)
      simp only [pcmpV, Option.some.injEq] at h1 h2 ⊢
      exact bcmp_lt_trans h1 h2
    | Usize x =>
      obtain ⟨y, rfl⟩ := disc_Usize b (by simpa [Value.disc] using hab.symm)
      obtain ⟨z, rfl⟩ := disc_Usize c (by simpa [Value.disc] using hbc.symm)
      simp only [pcmpV, Option.some.injEq] at h1 h2 ⊢
      exact ncmp_lt_trans h1 h2
    | U8 x =>
      obtain ⟨y, rfl⟩ := disc_U8 b (by simpa [Value.disc] using hab.symm)
      obtain ⟨z, rfl⟩ := disc_U8 c (by simpa [Value.disc] using hbc.symm)
      simp only [pcmpV, Option.some.injEq] at h1 h2 ⊢
      exact ncmp_lt_trans h1 h2
    | U16 x =>
      obtain ⟨y, rfl⟩ := disc_U16 b (by simpa [Value.disc] using hab.symm)
      obtain ⟨z, rfl⟩ := disc_U16 c (by simpa [Value.disc] using hbc.symm)
      simp only [pcmpV, Option.some.injEq] at h1 h2 ⊢
      exact ncmp_lt_trans h1 h2
    | U32 x =>
      obtain ⟨y, rfl⟩ := disc_U32 b (by simpa [Value.disc] using hab.symm)
      obtain ⟨z, rfl⟩ := disc_U32 c (by simpa [Value.disc] using hbc.symm)
      simp only [pcmpV, Option.some.injEq] at h1 h2 ⊢
      exact ncmp_lt_trans h1 h2
    | U64 x =>
      obtain ⟨y, rfl⟩ := disc_U64 b (by simpa [Value.disc] using hab.symm)
      obtain ⟨z, rfl⟩ := disc_U64 c (by simpa [Value.disc] using hbc.symm)
      simp only [pcmpV, Option.some.injEq] at h1 h2 ⊢
      exact ncmp_lt_trans h1 h2
    | Isize x =>
      obtain ⟨y, rfl⟩ := disc_Isize b (by simpa [Value.disc] using hab.symm)
      obtain ⟨z, rfl⟩ := disc_Isize c (by simpa [Value.disc] using hbc.symm)
      simp only [pcmpV, Option.some.injEq] at h1 h2 ⊢
      exact icmp_lt_trans h1 h2
    | I8 x =>
      obtain ⟨y, rfl⟩ := disc_I8 b (by simpa [Value.disc] using hab.symm)
      obtain ⟨z, rfl⟩ := disc_I8 c (by simpa [Value.disc] using hbc.symm)
      simp only [pcmpV, Option.some.injEq] at h1 h2 ⊢
      exact icmp_lt_trans h1 h2
    | I16 x =>
      obtain ⟨y, rfl⟩ := disc_I16 b (by simpa [Value.disc] using hab.symm)
      obtain ⟨z, rfl⟩ := disc_I16 c (by simpa [Value.disc] using hbc.symm)
      simp only [pcmpV, Option.some.injEq] at h1 h2 ⊢
      exact icmp_lt_trans h1 h2
    | I32 x =>
      obtain ⟨y, rfl⟩ := disc_I32 b (by simpa [Value.disc] using hab.symm)
      obtain ⟨z, rfl⟩ := disc_I32 c (by simpa [Value.disc] using hbc.symm)
      simp only [pcmpV, Option.some.injEq] at h1 h2 ⊢
      exact icmp_lt_trans h1 h2
    | I64 x =>
      obtain ⟨y, rfl⟩ := disc_I64 b (by simpa [Value.disc] using hab.symm)
      obtain ⟨z, rfl⟩ := disc_I64 c (by simpa [Value.disc] using hbc.symm)
      simp only [pcmpV, Option.some.injEq] at h1 h2 ⊢
      exact icmp_lt_trans h1 h2
    | F32 x =>
      obtain ⟨y, rfl⟩ := disc_F32 b (by simpa [Value.disc] using hab.symm)
      obtain ⟨z, rfl⟩ := disc_F32 c (by simpa [Value.disc] using hbc.symm)
      simp only [pcmpV, Option.some.injEq] at h1 h2 ⊢
      exact Fp.cmp_lt_trans h1 h2
    | F64 x =>
      obtain ⟨y, rfl⟩ := disc_F64 b (by simpa [Value.disc] using hab.symm)
      obtain ⟨z, rfl⟩ := disc_F64 c (by simpa [Value.disc] using hbc.symm)
      simp only [pcmpV, Option.some.injEq] at h1 h2 ⊢
      exact Fp.cmp_lt_trans h1 h2
    | Char x =>
      obtain ⟨y, rfl⟩ := disc_Char b (by simpa [Value.disc] using hab.symm)
      obtain ⟨z, rfl⟩ := disc_Char c (by simpa [Value.disc] using hbc.symm)
      simp only [pcmpV, Option.some.injEq] at h1 h2 ⊢
      exact ncmp_lt_trans h1 h2
    | String x =>
      obtain ⟨y, rfl⟩ := disc_String b (by simpa [Value.disc] using hab.symm)
      obtain ⟨z, rfl⟩ := disc_String c (by simpa [Value.disc] using hbc.symm)
      simp only [pcmpV, Option.some.injEq] at h1 h2 ⊢
      exact lexN_lt_trans h1 h2
    | Unit =>
      rw [disc_Unit b (by simpa [Value.disc] using hab.symm)] at h1
      simp [pcmpV] at h1
    | UnitStruct x =>
      obtain ⟨y, rfl⟩ := disc_UnitStruct b (by simpa [Value.disc] using hab.symm)
      obtain ⟨z, rfl⟩ := disc_UnitStruct c (by simpa [Value.disc] using hbc.symm)
      simp only [pcmpV, Option.some.injEq] at h1 h2 ⊢
      exact lexN_lt_trans h1 h2
    | Option o =>
      obtain ⟨o2, rfl⟩ := disc_Option b (by simpa [Value.disc] using hab.symm)
      obtain ⟨o3, rfl⟩ := disc_Option c (by simpa [Value.disc] using hbc.symm)
      simp only [pcmpV] at h1 h2 ⊢
      refine pcmpO_lt_trans o o2 o3 (fun x hx => ?_) h1 h2
      refine hsub x ?_
      cases o with
      | none => cases hx
      | some v =>
        have hxv : v = x := by simpa using hx
        subst hxv
        simp
        omega
    | Newtype v =>
      obtain ⟨w, rfl⟩ := disc_Newtype b (by simpa [Value.disc] using hab.symm)
      obtain ⟨u, rfl⟩ := disc_Newtype c (by simpa [Value.disc] using hbc.symm)
      simp only [pcmpV] at h1 h2 ⊢
      exact hsub v (by simp) w u h1 h2
    | Seq l =>
      obtain ⟨l2, rfl⟩ := disc_Seq b (by simpa [Value.disc] using hab.symm)
      obtain ⟨l3, rfl⟩ := disc_Seq c (by simpa [Value.disc] using hbc.symm)
      simp only [pcmpV] at h1 h2 ⊢
      refine pcmpS_lt_trans l l2 l3 (fun x hx => ?_) h1 h2
      refine hsub x ?_
      have := List.sizeOf_lt_of_mem hx
      simp
      omega
    | Map m =>
      obtain ⟨m2, rfl⟩ := disc_Map b (by simpa [Value.disc] using hab.symm)
      obtain ⟨m3, rfl⟩ := disc_Map c (by simpa [Value.disc] using hbc.symm)
      simp only [pcmpV] at h1 h2 ⊢
      refine pcmpM_lt_trans m m2 m3 (fun p hp => ?_) h1 h2
      obtain ⟨k, v⟩ := p
      have := List.sizeOf_lt_of_mem hp
      simp at this
      constructor
      · exact hsub k (by simp; omega)
      · exact hsub v (by simp; omega)
    | Bytes x =>
      obtain ⟨y, rfl⟩ := disc_Bytes b (by simpa [Value.disc] using hab.symm)
      obtain ⟨z, rfl⟩ := disc_Bytes c (by simpa [Value.disc] using hbc.symm)
      simp only [pcmpV, Option.some.injEq] at h1 h2 ⊢
      exact lexN_lt_trans h1 h2

/-- C1: The comparison on Value is a total order: for every pair of Values `a, b`
exactly one of `a<b`, `a=b`, `a>b` holds (with `a=b` the `PartialEq` equality and
the strict comparisons read off `partial_cmp`), and `<` is transitive; this holds
even for Values containing a floating-point NaN (NaN compares equal to itself and
is consistently ordered — greater — against all non-NaN floats), and
`partial_cmp` never returns `None`, so `Ord::cmp`'s `expect` never fails. -/
theorem c1_total_order (a b c : Value) :
    (pcmpV a b = some (cmpV a b)) ∧
    (beqV a b = true ↔ pcmpV a b = some Ordering.eq) ∧
    (pcmpV a b = some .lt ∨ beqV a b = true ∨ pcmpV a b = some .gt) ∧
    ¬(pcmpV a b = some .lt ∧ beqV a b = true) ∧
    ¬(pcmpV a b = some .lt ∧ pcmpV a b = some .gt) ∧
    ¬(beqV a b = true ∧ pcmpV a b = some .gt) ∧
    (pcmpV a b = some .lt → pcmpV b c = some .lt → pcmpV a c = some .lt) ∧
    (beqV (Value.F64 Fp.nan) (Value.F64 Fp.nan) = true) ∧
    (∀ x : Int, pcmpV (Value.F64 (Fp.num x)) (Value.F64 Fp.nan) = some .lt ∧
      pcmpV (Value.F32 (Fp.num x)) (Value.F32 Fp.nan) = some .lt) := by
  obtain ⟨o, ho⟩ := Option.isSome_iff_exists.1 (pcmpV_isSome a b)
  have hbeq : beqV a b = true ↔ pcmpV a b = some Ordering.eq := by
    rw [beqV_iff, pcmpV_eq_iff]
  refine ⟨?_, hbeq, ?_, ?_, ?_, ?_, pcmpV_lt_trans a b c, ?_, ?_⟩
  · rw [cmpV, ho]; rfl
  · rw [hbeq, ho]
    cases o with
    | lt => exact Or.inl rfl
    | eq => exact Or.inr (Or.inl rfl)
    | gt => exact Or.inr (Or.inr rfl)
  · rintro ⟨h1, h2⟩
    rw [hbeq] at h2
    rw [h1] at h2
    cases Option.some.inj h2
  · rintro ⟨h1, h2⟩
    rw [h1] at h2
    cases Option.some.inj h2
  · rintro ⟨h1, h2⟩
    rw [hbeq] at h1
    rw [h1] at h2
    cases Option.some.inj h2
  · simp [beqV, Fp.beq]
  · intro x
    constructor <;> simp [pcmpV, Fp.cmp]

/-- Witness for C1 at concrete inputs: `Bool false < Bool true < U8 0`
(the latter across variants), with transitivity giving `Bool false < U8 0`. -/
theorem c1_total_order_witness :
    pcmpV (Value.Bool false) (Value.Bool true) = some .lt ∧
    pcmpV (Value.Bool true) (Value.U8 0) = some .lt ∧
    pcmpV (Value.Bool false) (Value.U8 0) = some .lt := by
  refine ⟨by simp [pcmpV, bcmp], by simp [pcmpV, Value.disc, ncmp], ?_⟩
  exact (c1_total_order (Value.Bool false) (Value.Bool true) (Value.U8 0)).2.2.2.2.2.2.1
    (by simp [pcmpV, bcmp]) (by simp [pcmpV, Value.disc, ncmp])

/-- C7: Equality on Value is variant-exact — two Values with different
discriminants are never equal — and the order between two Values of different
variants is exactly the order of their discriminants (`Value::discriminant`,
which assigns 0..21 in declaration order). -/
theorem c7_variant_exact (a b : Value) (h : a.disc ≠ b.disc) :
    beqV a b = false ∧ pcmpV a b = some (ncmp a.disc b.disc) :=
  ⟨(pcmp_disc_ne a b h).2, (pcmp_disc_ne a b h).1⟩

/-- Witness for C7: an integer and a float holding the same numeric value
compare unequal, and order by discriminant (`U32 < F32`). -/
theorem c7_variant_exact_witness :
    beqV (Value.U32 1) (Value.F32 (Fp.num 1)) = false ∧
    pcmpV (Value.U32 1) (Value.F32 (Fp.num 1)) = some .lt := by
  have h := c7_variant_exact (Value.U32 1) (Value.F32 (Fp.num 1)) (by simp [Value.disc])
  simpa [Value.disc, ncmp] using h

/-- Counterexample to C8 as stated: the source enum also has a `Usize` variant
(platform-width unsigned integer), which is none of the spec's claimed shapes. -/
theorem c8_counterexample : ¬ specClaimedShape (Value.Usize 0) := by
  simp [specClaimedShape]

/-- C8 amended: the `Value` union has exactly one case per shape listed in the
spec **plus** three more variants the spec omits: `Usize` and `Isize`
(platform-width integers, making 5 unsigned and 5 signed widths) and
`UnitStruct` (a named unit marker). -/
theorem c8_variants_amended (v : Value) :
    specClaimedShape v ∨ (∃ x, v = .Usize x) ∨ (∃ x, v = .Isize x) ∨
      (∃ x, v = .UnitStruct x) := by
  cases v <;> simp [specClaimedShape]

theorem cmpV_eq_iff {a b : Value} : cmpV a b = .eq ↔ a = b := by
  obtain ⟨o, ho⟩ := Option.isSome_iff_exists.1 (pcmpV_isSome a b)
  rw [cmpV, ho, Option.getD_some, ← pcmpV_eq_iff a b, ho]
  simp

theorem btreeInsert_mem_self (m : List (Value × Value)) (k v : Value)
    (h : ∀ p ∈ m, p.1 ≠ k) : (k, v) ∈ btreeInsert m k v := by
  induction m with
  | nil => simp [btreeInsert]
  | cons p rest ihm =>
    obtain ⟨k0, v0⟩ := p
    cases hc : cmpV k k0 with
    | lt => simp [btreeInsert, hc]
    | eq => exact absurd (cmpV_eq_iff.1 hc).symm (h (k0, v0) (by simp))
    | gt =>
      simp only [btreeInsert, hc, List.mem_cons]
      exact Or.inr (ihm (fun p hp => h p (by simp [hp])))

theorem btreeInsert_mem_other (m : List (Value × Value)) (k v : Value)
    (q : Value × Value) (hq : q ∈ m) (hne : q.1 ≠ k) : q ∈ btreeInsert m k v := by
  induction m with
  | nil => cases hq
  | cons p rest ihm =>
    obtain ⟨k0, v0⟩ := p
    cases hc : cmpV k k0 with
    | lt => simp only [btreeInsert, hc, List.mem_cons]; simp at hq; tauto
    | eq =>
      have hk : k = k0 := cmpV_eq_iff.1 hc
      rcases List.mem_cons.1 hq with rfl | hq'
      · exact absurd (by simp [hk]) hne
      · simp [btreeInsert, hc, hq']
    | gt =>
      rcases List.mem_cons.1 hq with rfl | hq'
      · simp [btreeInsert, hc]
      · simp only [btreeInsert, hc, List.mem_cons]
        exact Or.inr (ihm hq')

theorem btreeInsert_mem_inv (m : List (Value × Value)) (k v : Value)
    (q : Value × Value) (hq : q ∈ btreeInsert m k v) : q ∈ m ∨ q.1 = k := by
  induction m with
  | nil =>
    simp [btreeInsert] at hq
    subst hq
    exact Or.inr rfl
  | cons p rest ihm =>
    obtain ⟨k0, v0⟩ := p
    cases hc : cmpV k k0 with
    | lt =>
      simp only [btreeInsert, hc, List.mem_cons] at hq
      rcases hq with rfl | hq'
      · exact Or.inr rfl
      · exact Or.inl (List.mem_cons.2 hq')
    | eq =>
      have hk : k = k0 := cmpV_eq_iff.1 hc
      simp only [btreeInsert, hc, List.mem_cons] at hq
      rcases hq with rfl | hq'
      · exact Or.inr (by simp [hk])
      · exact Or.inl (by simp [hq'])
    | gt =>
      simp only [btreeInsert, hc, List.mem_cons] at hq
      rcases hq with rfl | hq'
      · exact Or.inl (by simp)
      · rcases ihm hq' with h | h
        · exact Or.inl (by simp [h])
        · exact Or.inr h

theorem foldIns_mem : ∀ (iter acc : List (Value × Value)),
    (∀ p ∈ iter, ∀ q ∈ acc, q.1 ≠ p.1) →
    iter.Pairwise (fun p q => p.1 ≠ q.1) →
    (∀ p ∈ acc, p ∈ iter.foldl (fun m p => btreeInsert m p.1 p.2) acc) ∧
    (∀ p ∈ iter, p ∈ iter.foldl (fun m p => btreeInsert m p.1 p.2) acc) := by
  intro iter
  induction iter with
  | nil =>
    intro acc _ _
    exact ⟨fun p hp => by simpa using hp, fun p hp => by cases hp⟩
  | cons hd tl ih =>
    intro acc hdisj hpw
    obtain ⟨hpw1, hpw2⟩ := List.pairwise_cons.1 hpw
    have hdisj' : ∀ p ∈ tl, ∀ q ∈ btreeInsert acc hd.1 hd.2, q.1 ≠ p.1 := by
      intro p hp q hq
      rcases btreeInsert_mem_inv acc hd.1 hd.2 q hq with hq' | hq'
      · exact hdisj p (by simp [hp]) q hq'
      · rw [hq']; exact hpw1 p hp
    have ih' := ih (btreeInsert acc hd.1 hd.2) hdisj' hpw2
    constructor
    · intro p hp
      have hp' : p ∈ btreeInsert acc hd.1 hd.2 :=
        btreeInsert_mem_other acc hd.1 hd.2 p hp (hdisj hd (by simp) p hp)
      simpa using ih'.1 p hp'
    · intro p hp
      rcases List.mem_cons.1 hp with rfl | hp'
      · have hself : p ∈ btreeInsert acc p.1 p.2 := by
          have := btreeInsert_mem_self acc p.1 p.2 (fun q hq => hdisj p (by simp) q hq)
          simpa using this
        simpa using ih'.1 p hself
      · simpa using ih'.2 p hp'

theorem visit_key_skip_unknowns (kdec : Value → Except DeserializerError κ) :
    ∀ (pre rest : List (Value × Value)) (m : List (Value × Value)) (val : Option Value),
    (∀ p ∈ pre, ∃ f, kdec p.1 = .error (.UnknownField f)) →
    visit_key kdec ⟨pre ++ rest, some (Value.Map m), val⟩ =
      visit_key kdec ⟨rest,
        some (Value.Map (pre.foldl (fun acc p => btreeInsert acc p.1 p.2) m)), val⟩ := by
  intro pre
  induction pre with
  | nil => intro rest m val _; simp
  | cons hd tl ih =>
    intro rest m val hpre
    obtain ⟨k, v⟩ := hd
    obtain ⟨f, hf⟩ := hpre (k, v) (by simp)
    have step : visit_key kdec ⟨(k, v) :: (tl ++ rest), some (Value.Map m), val⟩ =
        visit_key kdec ⟨tl ++ rest, some (Value.Map (btreeInsert m k v)), val⟩ := by
      rw [visit_key]
      simp [hf, borrow_map]
    simpa [step] using ih rest (btreeInsert m k v) val (fun p hp => hpre p (by simp [hp]))

/-- C2: during map decode, a pair whose key fails with specifically an
unknown-field error is not discarded: it is inserted into the side buffer (the
parent `Deserializer`'s map) and the key walk continues with the next pair — a
whole prefix of such pairs gets buffered in order; a key failure of any other
kind is returned immediately, aborting the map decode; and an exhausted pair
iteration answers `Ok(None)`. -/
theorem c2_unknown_key_requeue (kdec : Value → Except DeserializerError κ) :
    (∀ (k v : Value) (f : Str) (rest : List (Value × Value)) (de val : Option Value),
      kdec k = .error (.UnknownField f) →
      (de = none ∨ ∃ m, de = some (Value.Map m)) →
      visit_key kdec ⟨(k, v) :: rest, de, val⟩ =
        visit_key kdec ⟨rest, some (Value.Map (btreeInsert (borrow_map de) k v)), val⟩) ∧
    (∀ (pre rest m : List (Value × Value)) (val : Option Value),
      (∀ p ∈ pre, ∃ f, kdec p.1 = .error (.UnknownField f)) →
      visit_key kdec ⟨pre ++ rest, some (Value.Map m), val⟩ =
        visit_key kdec ⟨rest,
          some (Value.Map (pre.foldl (fun acc p => btreeInsert acc p.1 p.2) m)), val⟩) ∧
    (∀ (k v : Value) (rest : List (Value × Value)) (de val : Option Value)
        (e : DeserializerError),
      kdec k = .error e → (∀ f, e ≠ .UnknownField f) →
      visit_key kdec ⟨(k, v) :: rest, de, val⟩ = (.error e, ⟨rest, de, val⟩)) ∧
    (∀ de val, visit_key kdec ⟨[], de, val⟩ = (.ok none, ⟨[], de, val⟩)) := by
  refine ⟨?_, visit_key_skip_unknowns kdec, ?_, ?_⟩
  · intro k v f rest de val hk _
    rw [visit_key]
    simp [hk]
  · intro k v rest de val e he hne
    cases e with
    | UnknownField f => exact absurd rfl (hne f)
    | Custom m => rw [visit_key]; simp [he]
    | EndOfStream => rw [visit_key]; simp [he]
    | InvalidType t => rw [visit_key]; simp [he]
    | InvalidValue m => rw [visit_key]; simp [he]
    | InvalidLength n => rw [visit_key]; simp [he]
    | UnknownVariant f => rw [visit_key]; simp [he]
    | MissingField f => rw [visit_key]; simp [he]
  · intro de val
    rw [visit_key]

/-- Witness for C2 at a concrete map: the unrecognized key `[120]` is re-buffered
and the walk continues with the recognized key `[107]`. -/
theorem c2_unknown_key_requeue_witness :
    visit_key kdec0 ⟨[(Value.String [120], Value.U8 1), (Value.String [107], Value.U8 2)],
        some (Value.Map []), none⟩ =
      visit_key kdec0 ⟨[(Value.String [107], Value.U8 2)],
        some (Value.Map ([(Value.String [120], Value.U8 1)].foldl
          (fun acc p => btreeInsert acc p.1 p.2) [])), none⟩ := by
  have h := (c2_unknown_key_requeue kdec0).2.1 [(Value.String [120], Value.U8 1)]
    [(Value.String [107], Value.U8 2)] [] none
    (by intro p hp; simp at hp; subst hp; exact ⟨[120], by simp [kdec0]⟩)
  exact h

/-- C9: `MapVisitor::end` always succeeds, and every key/value pair the target
did not consume — both the pairs re-buffered into the parent's map during the
key walk and the pairs never reached by the iteration — ends up stored in the
parent `Deserializer`'s slot as a `Map`; a consumed parent slot gets a fresh
empty map first.  (The distinct-keys hypotheses hold for any real `BTreeMap`
source, whose keys are strictly sorted.) -/
theorem c9_end_preserves (iter buf : List (Value × Value)) (val : Option Value)
    (hdisj : ∀ p ∈ iter, ∀ q ∈ buf, q.1 ≠ p.1)
    (hpw : iter.Pairwise (fun p q => p.1 ≠ q.1)) :
    (mapVisitorEnd ⟨iter, some (Value.Map buf), val⟩).1 = .ok () ∧
    (∃ m', (mapVisitorEnd ⟨iter, some (Value.Map buf), val⟩).2.de = some (Value.Map m') ∧
      (∀ p ∈ buf, p ∈ m') ∧ (∀ p ∈ iter, p ∈ m')) ∧
    (∀ val', (mapVisitorEnd ⟨iter, none, val'⟩).1 = .ok () ∧
      (mapVisitorEnd ⟨iter, none, val'⟩).2.de =
        some (Value.Map (iter.foldl (fun m p => btreeInsert m p.1 p.2) []))) := by
  refine ⟨rfl, ?_, fun val' => ⟨rfl, rfl⟩⟩
  have hfold : (mapVisitorEnd ⟨iter, some (Value.Map buf), val⟩).2.de =
      some (Value.Map (iter.foldl (fun m p => btreeInsert m p.1 p.2) buf)) := rfl
  exact ⟨_, hfold, (foldIns_mem iter buf hdisj hpw).1, (foldIns_mem iter buf hdisj hpw).2⟩

/-- Witness for C9 at a concrete state: one never-reached pair and one
re-buffered pair both end up in the parent's map. -/
theorem c9_end_preserves_witness :
    (mapVisitorEnd ⟨[(Value.U8 0, Value.Unit)], some (Value.Map [(Value.U8 1, Value.Unit)]),
        none⟩).1 = .ok () ∧
    (∃ m', (mapVisitorEnd ⟨[(Value.U8 0, Value.Unit)],
        some (Value.Map [(Value.U8 1, Value.Unit)]), none⟩).2.de = some (Value.Map m') ∧
      (∀ p ∈ [(Value.U8 1, Value.Unit)], p ∈ m') ∧
      (∀ p ∈ [(Value.U8 0, Value.Unit)], p ∈ m')) := by
  have h := c9_end_preserves [(Value.U8 0, Value.Unit)] [(Value.U8 1, Value.Unit)] none
    (by intro p hp q hq; simp at hp hq; subst hp; subst hq; simp)
    (by simp)
  exact ⟨h.1, h.2.1⟩

/-- C6: a decode request for an optional value inspects the held Value rather
than requiring the `Option` variant: a held `Option` decodes according to its
payload (absent payload answers `visit_none`; present payload `w` answers
`visit_some` on a fresh deserializer holding `w`); a held `Unit` is consumed
and decodes as absent; a held value of every other variant decodes as present,
`visit_some` wrapping a decode of that same Value. -/
theorem c6_option_probing {α : Type} (vis : DVisitor α) :
    (deserialize_option (some (Value.Option none)) vis = (vis.visit_none, none)) ∧
    (∀ w, deserialize_option (some (Value.Option (some w))) vis
        = ((vis.visit_some (some w)).1, none)) ∧
    (deserialize_option (some Value.Unit) vis = (vis.visit_none, none)) ∧
    (∀ v, (∀ o, v ≠ Value.Option o) → v ≠ Value.Unit →
      deserialize_option (some v) vis = vis.visit_some (some v)) := by
  refine ⟨rfl, fun w => rfl, rfl, ?_⟩
  intro v h1 h2
  cases v with
  | Option o => exact absurd rfl (h1 o)
  | Unit => exact absurd rfl h2
  | Bool x => rfl
  | Usize x => rfl
  | U8 x => rfl
  | U16 x => rfl
  | U32 x => rfl
  | U64 x => rfl
  | Isize x => rfl
  | I8 x => rfl
  | I16 x => rfl
  | I32 x => rfl
  | I64 x => rfl
  | F32 x => rfl
  | F64 x => rfl
  | Char x => rfl
  | String x => rfl
  | UnitStruct x => rfl
  | Newtype x => rfl
  | Seq x => rfl
  | Map x => rfl
  | Bytes x => rfl

/-- Witness for C6: a held `Bool` (neither `Option` nor `Unit`) is answered as
present via `visit_some` on the same Value. -/
theorem c6_option_probing_witness :
    deserialize_option (some (Value.Bool true)) (defaultVisitor Nat)
      = (defaultVisitor Nat).visit_some (some (Value.Bool true)) :=
  (c6_option_probing (defaultVisitor Nat)).2.2.2 (Value.Bool true)
    (fun o => by simp) (by simp)

/-- Counterexample to C10 as stated: not every decode request against a
consumed `Deserializer` fails with end-of-stream.  `deserialize_enum` — which
the `forward_to_deserialize!` macro special-cases instead of forwarding — fails
with an invalid-type error, never end-of-stream; and `deserialize_option` on a
consumed slot falls into its default arm and hands the deserializer to
`visit_some` without failing, so a visitor whose `visit_some` answers directly
obtains a value from consumed state. -/
theorem c10_counterexample :
    deserialize_enum none (defaultVisitor Nat) = (.error (.InvalidType deTypeEnum), none) ∧
    deserialize_enum none (defaultVisitor Nat) ≠
      ((.error .EndOfStream : Except DeserializerError Nat), none) ∧
    deserialize_option none constSomeVisitor = (.ok 7, none) := by
  refine ⟨rfl, ?_, rfl⟩
  simp [deserialize_enum]

/-- C10 amended: every decode request that dispatches through `deserialize` —
every request kind except `deserialize_option` and the macro-special-cased
`deserialize_enum` — made against a `Deserializer` whose held value is already
consumed (empty slot) fails with the end-of-stream error before consulting the
visitor, and a map value-request without a pending value also fails with
end-of-stream; `deserialize_enum` instead fails with an invalid-type error
regardless of the state, and `deserialize_option` on a consumed slot does not
itself fail but hands the same, still-consumed deserializer to the visitor's
`visit_some`, so any request the visitor then makes through `deserialize`
again hits end-of-stream. -/
theorem c10_consumed_state_amended {α τ : Type} (vis : DVisitor α)
    (vdec : Value → Except DeserializerError τ) (iter : List (Value × Value))
    (de : Option Value) :
    deserialize none vis = (.error .EndOfStream, none) ∧
    visit_value vdec ⟨iter, de, none⟩ = (.error .EndOfStream, ⟨iter, de, none⟩) ∧
    deserialize_enum none vis = (.error (.InvalidType deTypeEnum), none) ∧
    deserialize_option none vis = vis.visit_some none :=
  ⟨rfl, rfl, rfl, rfl⟩

/-- Counterexample to C3 as stated: a missing non-optional field is not always
reported with a missing-field error naming the field.  An enum-typed field's
decode enters `deserialize_enum`, which the `forward_to_deserialize!` macro
special-cases (src/forward.rs lines 13-23, in `MissingFieldDeserializer`'s
forward list at src/lib.rs line 504) to an invalid-type error that names no
field. -/
theorem c3_counterexample :
    mfdDeserializeEnum [99] (defaultVisitor Nat) = .error (.InvalidType deTypeEnum) ∧
    mfdDeserializeEnum [99] (defaultVisitor Nat) ≠
      (.error (.MissingField [99]) : Except DeserializerError Nat) := by
  refine ⟨rfl, ?_⟩
  simp [mfdDeserializeEnum]

/-- C3 amended: when the target's decode requests a field whose key is absent,
the decoder synthesizes on demand via `MissingFieldDeserializer`: an optional
field type (whose decode begins with `deserialize_option`, serde's `Option`
visitor) gets the absent value `Ok(None)`; a non-optional field type fails —
with a missing-field error naming that field for every request kind except
enum requests, which the `forward_to_deserialize!` macro special-cases to an
invalid-type error naming no field; no default is guessed from the expected
type.  The last conjunct is the empty-map premise: the key walk over a map
with no pairs reports no keys, so every field of the target is missing. -/
theorem c3_missing_field_amended {α τ κ : Type} (field : Str) (vis : DVisitor α)
    (tdec : Option Value → Except DeserializerError τ × Option Value) :
    mfdDeserializeOption field (optionVisitor tdec) = .ok none ∧
    mfdDeserialize field vis = .error (.MissingField field) ∧
    mfdDeserializeEnum field vis = .error (.InvalidType deTypeEnum) ∧
    (∀ (kdec : Value → Except DeserializerError κ) (de val : Option Value),
      visit_key kdec ⟨[], de, val⟩ = (.ok none, ⟨[], de, val⟩)) :=
  ⟨rfl, rfl, rfl, fun kdec de val => by rw [visit_key]⟩

theorem keysAbove_mem (k : Value) (rest : List (Value × Value))
    (h : keysAbove k rest = true) : ∀ p ∈ rest, cmpV p.1 k = .gt := by
  induction rest with
  | nil => intro p hp; cases hp
  | cons q qs ihr =>
    obtain ⟨k', v'⟩ := q
    intro p hp
    cases hcc : cmpV k' k with
    | gt =>
      simp only [keysAbove, hcc] at h
      rcases List.mem_cons.1 hp with rfl | hp'
      · simpa using hcc
      · exact ihr h p hp'
    | lt => simp only [keysAbove, hcc] at h; cases h
    | eq => simp only [keysAbove, hcc] at h; cases h

theorem btreeInsert_append (m : List (Value × Value)) (k v : Value)
    (h : ∀ q ∈ m, cmpV k q.1 = .gt) : btreeInsert m k v = m ++ [(k, v)] := by
  induction m with
  | nil => rfl
  | cons q rest ihm =>
    obtain ⟨k0, v0⟩ := q
    have hk : cmpV k k0 = .gt := h (k0, v0) (by simp)
    simp only [btreeInsert, hk]
    rw [ihm (fun q hq => h q (by simp [hq]))]
    simp

theorem foldIns_sorted : ∀ (ps acc : List (Value × Value)),
    (∀ p ∈ ps, ∀ q ∈ acc, cmpV p.1 q.1 = .gt) →
    keysSorted ps = true →
    ps.foldl (fun m p => btreeInsert m p.1 p.2) acc = acc ++ ps := by
  intro ps
  induction ps with
  | nil => intro acc _ _; simp
  | cons hd tl ih =>
    intro acc hgt hs
    obtain ⟨k, v⟩ := hd
    simp only [keysSorted, Bool.and_eq_true] at hs
    have hstep : btreeInsert acc k v = acc ++ [(k, v)] :=
      btreeInsert_append acc k v (fun q hq => hgt (k, v) (by simp) q hq)
    have htl : ∀ p ∈ tl, ∀ q ∈ acc ++ [(k, v)], cmpV p.1 q.1 = .gt := by
      intro p hp q hq
      rcases List.mem_append.1 hq with hq' | hq'
      · exact hgt p (by simp [hp]) q hq'
      · have : q = (k, v) := by simpa using hq'
        subst this
        exact keysAbove_mem k tl hs.1 p hp
    calc ((k, v) :: tl).foldl (fun m p => btreeInsert m p.1 p.2) acc
        = tl.foldl (fun m p => btreeInsert m p.1 p.2) (acc ++ [(k, v)]) := by
          simp [hstep]
      _ = (acc ++ [(k, v)]) ++ tl := ih (acc ++ [(k, v)]) htl hs.2
      _ = acc ++ ((k, v) :: tl) := by simp

theorem isNormalL_mem (l : List Value) (h : isNormalL l = true) :
    ∀ x ∈ l, isNormal x = true := by
  induction l with
  | nil => intro x hx; cases hx
  | cons a as ihl =>
    simp only [isNormalL, Bool.and_eq_true] at h
    intro x hx
    rcases List.mem_cons.1 hx with rfl | hx'
    · exact h.1
    · exact ihl h.2 x hx'

theorem isNormalP_mem (ps : List (Value × Value)) (h : isNormalP ps = true) :
    ∀ p ∈ ps, isNormal p.1 = true ∧ isNormal p.2 = true := by
  induction ps with
  | nil => intro p hp; cases hp
  | cons q qs ihp =>
    obtain ⟨k, v⟩ := q
    simp only [isNormalP, Bool.and_eq_true] at h
    intro p hp
    rcases List.mem_cons.1 hp with rfl | hp'
    · exact ⟨h.1.1, h.1.2⟩
    · exact ihp h.2 p hp'

theorem roundL (l : List Value)
    (ih : ∀ x ∈ l, deserializeValue (serializeV x) = x) :
    deserializeL (serializeL l) = l := by
  induction l with
  | nil => simp [serializeL, deserializeL]
  | cons a as ihl =>
    simp only [serializeL, deserializeL]
    rw [ih a (by simp), ihl (fun x hx => ih x (by simp [hx]))]

theorem roundP (ps : List (Value × Value))
    (ih : ∀ p ∈ ps, deserializeValue (serializeV p.1) = p.1 ∧
      deserializeValue (serializeV p.2) = p.2) :
    deserializeP (serializeP ps) = ps := by
  induction ps with
  | nil => simp [serializeP, deserializeP]
  | cons q qs ihp =>
    obtain ⟨k, v⟩ := q
    simp only [serializeP, deserializeP]
    rw [(ih (k, v) (by simp)).1, (ih (k, v) (by simp)).2,
      ihp (fun p hp => ih p (by simp [hp]))]

/-- C4: for every Value constructible from the data model (every `Map` node
strictly ascending, as `BTreeMap` guarantees), serializing it through
`impl Serialize for Value` and deserializing the resulting event stream back
through `ValueVisitor` yields the same Value — equal both as Lean equality and
under the crate's own `PartialEq`. -/
theorem c4_roundtrip : ∀ v : Value, isNormal v = true →
    deserializeValue (serializeV v) = v ∧
      beqV (deserializeValue (serializeV v)) v = true := by
  suffices h : ∀ n (v : Value), sizeOf v ≤ n → isNormal v = true →
      deserializeValue (serializeV v) = v by
    intro v hv
    exact ⟨h (sizeOf v) v le_rfl hv, (beqV_iff _ _).2 (h (sizeOf v) v le_rfl hv)⟩
  intro n
  induction n using Nat.strong_induction_on with
  | _ n ih =>
    intro v hv hnorm
    have hsub : ∀ w : Value, sizeOf w < sizeOf v → isNormal w = true →
        deserializeValue (serializeV w) = w :=
      fun w h' hw => ih (sizeOf w) (Nat.lt_of_lt_of_le h' hv) w le_rfl hw
    cases v with
    | Bool b => simp [serializeV, deserializeValue]
    | Usize x => simp [serializeV, deserializeValue]
    | U8 x => simp [serializeV, deserializeValue]
    | U16 x => simp [serializeV, deserializeValue]
    | U32 x => simp [serializeV, deserializeValue]
    | U64 x => simp [serializeV, deserializeValue]
    | Isize x => simp [serializeV, deserializeValue]
    | I8 x => simp [serializeV, deserializeValue]
    | I16 x => simp [serializeV, deserializeValue]
    | I32 x => simp [serializeV, deserializeValue]
    | I64 x => simp [serializeV, deserializeValue]
    | F32 x => simp [serializeV, deserializeValue]
    | F64 x => simp [serializeV, deserializeValue]
    | Char x => simp [serializeV, deserializeValue]
    | String x => simp [serializeV, deserializeValue]
    | Unit => simp [serializeV, deserializeValue]
    | UnitStruct x => simp [serializeV, deserializeValue]
    | Bytes x => simp [serializeV, deserializeValue]
    | Option o =>
      cases o with
      | none => simp [serializeV, deserializeValue]
      | some w =>
        have hw : isNormal w = true := by simpa [isNormal] using hnorm
        have he := hsub w (by simp; omega) hw
        simp [serializeV, deserializeValue, he]
    | Newtype w =>
      have hw : isNormal w = true := by simpa [isNormal] using hnorm
      have he := hsub w (by simp) hw
      simp [serializeV, deserializeValue, he]
    | Seq l =>
      have hl : isNormalL l = true := by simpa [isNormal] using hnorm
      have hL : deserializeL (serializeL l) = l := by
        refine roundL l (fun x hx => ?_)
        refine hsub x ?_ (isNormalL_mem l hl x hx)
        have := List.sizeOf_lt_of_mem hx
        simp
        omega
      simp [serializeV, deserializeValue, hL]
    | Map m =>
      have hm : keysSorted m = true ∧ isNormalP m = true := by
        simpa [isNormal, Bool.and_eq_true] using hnorm
      have hP : deserializeP (serializeP m) = m := by
        refine roundP m (fun p hp => ?_)
        obtain ⟨k, w⟩ := p
        have := List.sizeOf_lt_of_mem hp
        simp at this
        have hkw := isNormalP_mem m hm.2 (k, w) hp
        constructor
        · exact hsub k (by simp; omega) hkw.1
        · exact hsub w (by simp; omega) hkw.2
      have hfold := foldIns_sorted m [] (fun p _ q hq => by cases hq) hm.1
      simp [serializeV, deserializeValue, hP, hfold]

/-- Witness for C4 at a concrete normal Value: a two-key map with nested
option and sequence children round-trips to itself. -/
theorem c4_roundtrip_witness :
    isNormal (Value.Map [(Value.U8 0, Value.Option (Option.some (Value.Bool true))),
      (Value.U8 1, Value.Seq [Value.Unit])]) = true ∧
    deserializeValue (serializeV (Value.Map
      [(Value.U8 0, Value.Option (Option.some (Value.Bool true))),
        (Value.U8 1, Value.Seq [Value.Unit])])) =
      Value.Map [(Value.U8 0, Value.Option (Option.some (Value.Bool true))),
        (Value.U8 1, Value.Seq [Value.Unit])] := by
  have hn : isNormal (Value.Map [(Value.U8 0, Value.Option (Option.some (Value.Bool true))),
      (Value.U8 1, Value.Seq [Value.Unit])]) = true := by
    simp [isNormal, isNormalP, isNormalL, keysSorted, keysAbove, cmpV, pcmpV, ncmp]
  exact ⟨hn, (c4_roundtrip _ hn).1⟩
